import Mathlib

/-!
Verification of the `kas` layout core (`src/layout/size_rules.rs`).

The Rust source is shallowly embedded: `u32` values are natural numbers
together with the explicit wrap-around `% 2^32` exactly where the source
can overflow or underflow in release builds (unchecked `+`, `-`, `*`);
subtractions that the source guards with a comparison are plain truncated
`Nat` subtraction, which coincides with the guarded `u32` result.
Code paths that panic (`assert!`, `panic!`) return `none`.
The `f64` arithmetic of `SizeRules::solve_seq` is embedded exactly as
round-to-nearest-even on 53 significant bits over `ℚ` (the values that
occur lie far inside the normal range of binary64, so the unbounded
exponent of the model agrees with IEEE 754 binary64).
-/

/-- Modulus of `u32` arithmetic. -/
def U32 : ℕ := 4294967296

/-- Wrapping `u32` addition (release-mode Rust `+` on `u32`). -/
def add32 (a b : ℕ) : ℕ := (a + b) % U32

/-- Wrapping `u32` subtraction (release-mode Rust `-` on `u32`), valid for
representatives `a b < U32` (for `b < U32` the term `a + (U32 - b)` equals
the usual `a + U32 - b`). -/
def sub32 (a b : ℕ) : ℕ := (a + (U32 - b)) % U32

/-- Wrapping `u32` multiplication (release-mode Rust `*` on `u32`). -/
def mul32 (a b : ℕ) : ℕ := (a * b) % U32

/-- Embedding of `kas::geom::Size`, a `(u32, u32)` width/height pair. -/
abbrev Size := ℕ × ℕ

/-- Embedding of `SizeRules { a: u32, b: u32 }`: minimum size `a`, preferred
size `b` (field names as in the source). -/
structure SizeRules where
  a : ℕ
  b : ℕ
deriving DecidableEq, Repr

namespace SizeRules

/-- `SizeRules::EMPTY`. -/
def EMPTY : SizeRules := ⟨0, 0⟩

/-- `SizeRules::fixed(size)`. -/
def fixed (size : ℕ) : SizeRules := ⟨size, size⟩

/-- `SizeRules::variable(min, pref)`; the source panics (modelled as `none`)
when `min > pref`. -/
def variable' (min pref : ℕ) : Option SizeRules :=
  if pref < min then none else some ⟨min, pref⟩

/-- `SizeRules::max`: component-wise maximum. -/
def max (s rhs : SizeRules) : SizeRules := ⟨Max.max s.a rhs.a, Max.max s.b rhs.b⟩

/-- `SizeRules::min_size`. -/
def min_size (s : SizeRules) : ℕ := s.a

/-- `impl Add<SizeRules> for SizeRules`: component-wise `u32` addition. -/
def add (s rhs : SizeRules) : SizeRules := ⟨add32 s.a rhs.a, add32 s.b rhs.b⟩

/-- `SizeRules::set_at_least_op_sub(x, y)` acting on `s` (the `self` of the
source); both subtractions are guarded by `>` in the source, so they are
plain truncated subtraction. -/
def set_at_least_op_sub (s x y : SizeRules) : SizeRules :=
  let a' := if y.a < x.a then Max.max s.a (x.a - y.a) else s.a
  let b' := if y.b < x.b then Max.max s.b (x.b - y.b) else s.b
  ⟨a', Max.max a' b'⟩

/-- `SizeRules::reduce_min_to`. -/
def reduce_min_to (s : SizeRules) (min : ℕ) : SizeRules := ⟨Min.min s.a min, s.b⟩

end SizeRules

/-- Embedding of `AxisInfo { vertical, has_fixed, other_axis }`. -/
structure AxisInfo where
  vertical : Bool
  has_fixed : Bool
  other_axis : ℕ
deriving DecidableEq, Repr

/-- Embedding of `Margins { first, last, inter }`. -/
structure Margins where
  first : Size
  last : Size
  inter : Size
deriving DecidableEq, Repr

namespace Margins

/-- `Margins::size_rules(axis_info, columns, rows)`: `Nat` subtraction is
exactly `u32::saturating_sub`, the additions and the multiplication are the
source's unchecked `u32` operations. -/
def size_rules (m : Margins) (axis_info : AxisInfo) (columns rows : ℕ) : SizeRules :=
  SizeRules.fixed (if !axis_info.vertical then
      add32 (add32 m.first.1 m.last.1) (mul32 m.inter.1 (columns - 1))
    else
      add32 (add32 m.first.2 m.last.2) (mul32 m.inter.2 (rows - 1)))

end Margins

/-! ## Exact model of the `f64` arithmetic used by `solve_seq`

IEEE 754 binary64 round-to-nearest-even, embedded exactly over `ℚ`.  The
values occurring in `solve_seq` (quotients and products of `u32`-ranged
numbers) lie far inside the normal range of binary64, so rounding to 53
significant bits with an unbounded exponent is exact for them. -/

/-- Greatest `z : ℤ` with `2 ^ z ≤ q`, valid for `q ≥ 2 ^ (-128)`. -/
def floorLog2 (q : ℚ) : ℤ := (Nat.log2 (Int.toNat ⌊q * 2 ^ (128 : ℕ)⌋) : ℤ) - 128

/-- Round a rational to the nearest integer, ties to even. -/
def rne (w : ℚ) : ℤ :=
  if w - ⌊w⌋ < 1 / 2 then ⌊w⌋
  else if (1 : ℚ) / 2 < w - ⌊w⌋ then ⌊w⌋ + 1
  else if ⌊w⌋ % 2 = 0 then ⌊w⌋ else ⌊w⌋ + 1

/-- Round a nonnegative rational to 53 significant bits, nearest-even:
the binary64 value of `q` (exponent unbounded; exact in the normal range). -/
def rnd53 (q : ℚ) : ℚ :=
  if q ≤ 0 then 0
  else ((rne (q * 2 ^ (-(floorLog2 q - 52))) : ℚ)) * 2 ^ (floorLog2 q - 52)

/-- The `f64` division `a as f64 / b as f64` of `solve_seq` (`u32` inputs are
converted exactly; the quotient is correctly rounded). -/
def f64div (a b : ℕ) : ℚ := rnd53 ((a : ℚ) / (b : ℚ))

/-- The `f64` product `x * (d as f64)` of `solve_seq` (correctly rounded). -/
def f64mul (x : ℚ) (d : ℕ) : ℚ := rnd53 (x * (d : ℚ))

/-- The Rust cast `as u32` applied to a (nonnegative) `f64`: truncate toward
zero and saturate at `u32::MAX`. -/
def castU32 (q : ℚ) : ℕ := Min.min (U32 - 1) (Int.toNat ⌊q⌋)

attribute [irreducible] floorLog2 rne rnd53 f64div f64mul castU32

/-! ## Embedding of `SizeRules::solve_seq`

The `out` slice is a `List ℕ`, `rules` a `List SizeRules` (children followed
by the aggregate `rules[N]`).  `assert!` failures and panics are `none`.
The deficit-case `while` loop is written with an explicit iteration budget
(`fuel`); `solve_seq` runs it with fuel `excess + 1`, which is proved
sufficient for every input (each productive iteration strictly decreases
`excess`, anything else leaves the loop).  The unguarded `u32` subtractions
`largest - next_largest` and `a - step` are truncated `Nat` subtraction;
on every state reachable from an actual call `next_largest ≤ largest` and
`step ≤ largest` hold, where truncated and `u32` subtraction agree. -/

/-- Fold of the source's `sum += size` accumulation (`u32` wrapping sum). -/
def sum32 (l : List ℕ) : ℕ := l.foldl add32 0

/-- The source's final surplus loop `for n in 0..rem { out[n] += 1 }`. -/
def addOneFirst : ℕ → List ℕ → List ℕ
  | 0, l => l
  | _ + 1, [] => []
  | k + 1, a :: l => add32 a 1 :: addOneFirst k l

/-- The deficit-case fallback loop (`step == 0`): walk `out`, decrement each
entry equal to `largest`, stopping after the entry at which `excess` has
already reached zero (the source tests `excess == 0` after decrementing
`out[n]` and before decrementing `excess`). -/
def decrLargest (largest : ℕ) : List ℕ → ℕ → List ℕ
  | [], _ => []
  | a :: rest, excess =>
    if a = largest then
      if excess = 0 then sub32 a 1 :: rest
      else sub32 a 1 :: decrLargest largest rest (excess - 1)
    else a :: decrLargest largest rest excess

/-- The deficit-case inner pass (`step > 0`): reduce entries at `largest` by
`step`, count entries at `thresh` into `num_add`, and rebuild `next_largest`
from the remaining entries.  Accumulators are threaded left to right as in
the source's `for` loop. -/
def shrinkPass (largest thresh step : ℕ) : List ℕ → ℕ → ℕ → List ℕ × ℕ × ℕ
  | [], num_add, next_largest => ([], num_add, next_largest)
  | a :: rest, num_add, next_largest =>
    if a = largest then
      let t := shrinkPass largest thresh step rest num_add next_largest
      ((a - step) :: t.1, t.2)
    else if a = thresh then
      let t := shrinkPass largest thresh step rest (num_add + 1) next_largest
      (a :: t.1, t.2)
    else if next_largest < a then
      let t := shrinkPass largest thresh step rest num_add a
      (a :: t.1, t.2)
    else
      let t := shrinkPass largest thresh step rest num_add next_largest
      (a :: t.1, t.2)

/-- The deficit-case initial scan: write each child's minimum into `out`
while tracking the largest value, the number of entries equal to it, and the
next largest distinct value. -/
def initScanGo : List SizeRules → ℕ → ℕ → ℕ → List ℕ × ℕ × ℕ × ℕ
  | [], largest, num_equal, next_largest => ([], largest, num_equal, next_largest)
  | r :: rest, largest, num_equal, next_largest =>
    if r.a = largest then
      let t := initScanGo rest largest (num_equal + 1) next_largest
      (r.a :: t.1, t.2)
    else if largest < r.a then
      let t := initScanGo rest r.a 1 largest
      (r.a :: t.1, t.2)
    else if next_largest < r.a then
      let t := initScanGo rest largest num_equal r.a
      (r.a :: t.1, t.2)
    else
      let t := initScanGo rest largest num_equal next_largest
      (r.a :: t.1, t.2)

/-- The deficit-case initial scan started from `largest = num_equal =
next_largest = 0` as in the source. -/
def initScan (children : List SizeRules) : List ℕ × ℕ × ℕ × ℕ :=
  initScanGo children 0 0 0

/-- The deficit-case `while excess > 0` loop, with an explicit iteration
budget.  `Nat` division by zero is `0`, which sends the (unreachable)
`num_equal = 0` state through the `step == 0` exit. -/
def shrinkLoop : ℕ → List ℕ → ℕ → ℕ → ℕ → ℕ → Option (List ℕ)
  | 0, _, _, _, _, _ => none
  | fuel + 1, out, excess, largest, num_equal, next_largest =>
    if excess = 0 then some out
    else if Min.min (excess / num_equal) (largest - next_largest) = 0 then
      some (decrLargest largest out excess)
    else
      shrinkLoop fuel
        (shrinkPass largest next_largest
          (Min.min (excess / num_equal) (largest - next_largest)) out 0 0).1
        (excess - Min.min (excess / num_equal) (largest - next_largest) * num_equal)
        (largest - Min.min (excess / num_equal) (largest - next_largest))
        (num_equal + (shrinkPass largest next_largest
          (Min.min (excess / num_equal) (largest - next_largest)) out 0 0).2.1)
        (shrinkPass largest next_largest
          (Min.min (excess / num_equal) (largest - next_largest)) out 0 0).2.2

/-- The surplus-case preliminary sizes (before remainder distribution):
proportional `f64` split when the aggregate headroom `pref_rel` is positive,
otherwise the even integer split `target_rel / N`. -/
def surplusPre (children : List SizeRules) (N target_rel pref_rel : ℕ) : List ℕ :=
  if 0 < pref_rel then
    children.map (fun r =>
      add32 r.a (castU32 (f64mul (f64div target_rel pref_rel) (sub32 r.b r.a))))
  else
    children.map (fun r => add32 r.a (target_rel / N))

/-- The surplus case of `solve_seq`: preliminary sizes, the two `assert!`s,
then distribution of the rounding remainder to the first `rem` children. -/
def surplusCase (children : List SizeRules) (N : ℕ) (agg : SizeRules)
    (target : ℕ) : Option (List ℕ) :=
  if sum32 (surplusPre children N (target - agg.a) (sub32 agg.b agg.a)) ≤ target then
    if target - sum32 (surplusPre children N (target - agg.a) (sub32 agg.b agg.a)) ≤ N then
      some (addOneFirst
        (target - sum32 (surplusPre children N (target - agg.a) (sub32 agg.b agg.a)))
        (surplusPre children N (target - agg.a) (sub32 agg.b agg.a)))
    else none
  else none

/-- `SizeRules::solve_seq(out, rules, target)`: `none` models a panic
(assertion failure); otherwise the final contents of `out` are returned. -/
def solveSeq (out : List ℕ) (rules : List SizeRules) (target : ℕ) :
    Option (List ℕ) :=
  if rules.length = out.length + 1 then
    if out.length = 0 then some out
    else if (rules.getD out.length SizeRules.EMPTY).a ≤ target then
      surplusCase (rules.take out.length) out.length
        (rules.getD out.length SizeRules.EMPTY) target
    else
      shrinkLoop ((rules.getD out.length SizeRules.EMPTY).a - target + 1)
        (initScan (rules.take out.length)).1
        ((rules.getD out.length SizeRules.EMPTY).a - target)
        (initScan (rules.take out.length)).2.1
        (initScan (rules.take out.length)).2.2.1
        (initScan (rules.take out.length)).2.2.2
  else none

/-- The preliminary surplus sizes of a `solve_seq` call, as a function of the
call's arguments (used to state the remainder-distribution property). -/
def surplusPreOf (out : List ℕ) (rules : List SizeRules) (target : ℕ) : List ℕ :=
  surplusPre (rules.take out.length) out.length
    (target - (rules.getD out.length SizeRules.EMPTY).a)
    (sub32 (rules.getD out.length SizeRules.EMPTY).b
      (rules.getD out.length SizeRules.EMPTY).a)

/-! ## Abbreviations used only in statements about the deficit case -/

/-- Largest entry of a list (`0` for the empty list). -/
def maxOf (l : List ℕ) : ℕ := l.foldr Max.max 0

/-- Largest entry strictly below `v` (`0` when there is none). -/
def maxBelow (l : List ℕ) (v : ℕ) : ℕ := maxOf (l.filter (fun a => a < v))

/-- One step of the deficit-case initial scan, on the
`(largest, num_equal, next_largest)` accumulator. -/
def scanUpd (s : ℕ × ℕ × ℕ) (a : ℕ) : ℕ × ℕ × ℕ :=
  if a = s.1 then (s.1, s.2.1 + 1, s.2.2)
  else if s.1 < a then (a, 1, s.1)
  else if s.2.2 < a then (s.1, s.2.1, a)
  else s

/-- The `(largest, num_equal, next_largest)` accumulator state describing a
fully scanned list: its maximum, the multiplicity of the maximum, and the
largest value strictly below the maximum. -/
def stateOf (s : List ℕ) : ℕ × ℕ × ℕ :=
  (maxOf s, s.count (maxOf s), maxBelow s (maxOf s))

/-- The invariant of the deficit-case `while` loop, relative to the list of
child minimums and the target: `out` stays below the minimums and inside
`u32` range, `largest` tracks the maximum of `out`, the sum of `out` exceeds
`target` by exactly `excess`, and whenever another productive step is
possible (`num_equal ≤ excess`) the accumulators `num_equal` and
`next_largest` are exact; `num_equal` never undercounts the maximum. -/
def ShrinkInv (mins : List ℕ) (target : ℕ) (out : List ℕ)
    (excess largest num_equal next_largest : ℕ) : Prop :=
  out.length = mins.length ∧
  (∀ n, out.getD n 0 ≤ mins.getD n 0) ∧
  (∀ a ∈ out, a < U32) ∧
  largest = maxOf out ∧
  out.sum = target + excess ∧
  (num_equal ≤ excess →
    num_equal = out.count largest ∧ next_largest = maxBelow out largest) ∧
  out.count largest ≤ num_equal ∧
  1 ≤ num_equal

/-! ### Bounds for the float model -/

lemma floorLog2_spec (q : ℚ) (h : (2 : ℚ) ^ (-128 : ℤ) ≤ q) :
    (2 : ℚ) ^ floorLog2 q ≤ q ∧ q < (2 : ℚ) ^ (floorLog2 q + 1) := by
  have h2 : (0 : ℚ) < 2 ^ (128 : ℕ) := by positivity
  have hs1 : (1 : ℚ) ≤ q * 2 ^ (128 : ℕ) := by
    have hpow : (2:ℚ) ^ (-128 : ℤ) * 2 ^ (128 : ℕ) = 1 := by
      rw [← zpow_natCast (2 : ℚ) 128, ← zpow_add₀ (by norm_num : (2:ℚ) ≠ 0)]
      norm_num
    have h3 := mul_le_mul_of_nonneg_right h (le_of_lt h2)
    rwa [hpow] at h3
  have hfl1 : (1 : ℤ) ≤ ⌊q * 2 ^ (128 : ℕ)⌋ := Int.le_floor.mpr (by exact_mod_cast hs1)
  have hcast : ((Int.toNat ⌊q * 2 ^ (128 : ℕ)⌋ : ℤ)) = ⌊q * 2 ^ (128 : ℕ)⌋ :=
    Int.toNat_of_nonneg (by omega)
  have hne : Int.toNat ⌊q * 2 ^ (128 : ℕ)⌋ ≠ 0 := by omega
  have hlow : (2 : ℕ) ^ (Int.toNat ⌊q * 2 ^ (128 : ℕ)⌋).log2 ≤
      Int.toNat ⌊q * 2 ^ (128 : ℕ)⌋ := (Nat.le_log2 hne).mp le_rfl
  have hhigh : Int.toNat ⌊q * 2 ^ (128 : ℕ)⌋ <
      (2 : ℕ) ^ ((Int.toNat ⌊q * 2 ^ (128 : ℕ)⌋).log2 + 1) :=
    (Nat.log2_lt hne).mp (Nat.lt_succ_self _)
  have hns : ((Int.toNat ⌊q * 2 ^ (128 : ℕ)⌋ : ℚ)) ≤ q * 2 ^ (128 : ℕ) := by
    have h1 : ((⌊q * 2 ^ (128 : ℕ)⌋ : ℤ) : ℚ) ≤ q * 2 ^ (128 : ℕ) := Int.floor_le _
    rw [← hcast] at h1
    exact_mod_cast h1
  have hsn : q * 2 ^ (128 : ℕ) < (Int.toNat ⌊q * 2 ^ (128 : ℕ)⌋ : ℚ) + 1 := by
    have h1 : q * 2 ^ (128 : ℕ) < ((⌊q * 2 ^ (128 : ℕ)⌋ : ℤ) : ℚ) + 1 :=
      Int.lt_floor_add_one _
    rw [← hcast] at h1
    exact_mod_cast h1
  constructor
  · rw [floorLog2, zpow_sub₀ (by norm_num : (2:ℚ) ≠ 0), zpow_natCast,
      div_le_iff (by positivity)]
    calc (2:ℚ) ^ (Int.toNat ⌊q * 2 ^ (128 : ℕ)⌋).log2
        ≤ (Int.toNat ⌊q * 2 ^ (128 : ℕ)⌋ : ℚ) := by exact_mod_cast hlow
      _ ≤ q * 2 ^ (128:ℕ) := hns
      _ = q * 2 ^ ((128:ℕ):ℤ) := by rw [zpow_natCast]
  · have hstep : floorLog2 q + 1 =
        (((Int.toNat ⌊q * 2 ^ (128 : ℕ)⌋).log2 + 1 : ℕ) : ℤ) - 128 := by
      rw [floorLog2]
      push_cast
      ring
    rw [hstep, zpow_sub₀ (by norm_num : (2:ℚ) ≠ 0), zpow_natCast,
      lt_div_iff (by positivity)]
    have hn1 : (Int.toNat ⌊q * 2 ^ (128 : ℕ)⌋ : ℚ) + 1 ≤
        (2:ℚ) ^ ((Int.toNat ⌊q * 2 ^ (128 : ℕ)⌋).log2 + 1) := by
      exact_mod_cast Nat.succ_le_of_lt hhigh
    calc q * 2 ^ ((128:ℕ):ℤ) = q * 2 ^ (128:ℕ) := by rw [zpow_natCast]
      _ < (Int.toNat ⌊q * 2 ^ (128 : ℕ)⌋ : ℚ) + 1 := hsn
      _ ≤ (2:ℚ) ^ ((Int.toNat ⌊q * 2 ^ (128 : ℕ)⌋).log2 + 1) := hn1

lemma rne_abs (w : ℚ) : |(rne w : ℚ) - w| ≤ 1 / 2 := by
  have h1 : ((⌊w⌋ : ℤ) : ℚ) ≤ w := Int.floor_le w
  have h2 : w < ((⌊w⌋ : ℤ) : ℚ) + 1 := Int.lt_floor_add_one w
  unfold rne
  split
  · rename_i hlt
    rw [abs_le]
    push_cast at hlt ⊢
    constructor <;> linarith
  · rename_i hge
    push_cast at hge
    split
    · rename_i hgt
      rw [abs_le]
      push_cast at hgt ⊢
      constructor <;> linarith
    · rename_i hle
      push_cast at hle
      have heq : w - ((⌊w⌋ : ℤ) : ℚ) = 1 / 2 := le_antisymm (by linarith) (by linarith)
      split
      · rw [abs_le]
        push_cast
        constructor <;> linarith
      · rw [abs_le]
        push_cast
        constructor <;> linarith

lemma rnd53_nonneg (q : ℚ) : 0 ≤ rnd53 q := by
  unfold rnd53
  split
  · exact le_refl 0
  · rename_i hq
    push_neg at hq
    have hw : 0 ≤ q * 2 ^ (-(floorLog2 q - 52)) := by positivity
    have hfl : (0 : ℤ) ≤ ⌊q * 2 ^ (-(floorLog2 q - 52))⌋ := Int.floor_nonneg.mpr hw
    have hrne : (0 : ℤ) ≤ rne (q * 2 ^ (-(floorLog2 q - 52))) := by
      unfold rne
      split
      · exact hfl
      · split
        · omega
        · split <;> omega
    have : (0 : ℚ) ≤ (rne (q * 2 ^ (-(floorLog2 q - 52))) : ℚ) := by exact_mod_cast hrne
    positivity

lemma rnd53_nonpos (q : ℚ) (h : q ≤ 0) : rnd53 q = 0 := by
  unfold rnd53
  exact if_pos h

lemma rnd53_abs (q : ℚ) (h : (2 : ℚ) ^ (-128 : ℤ) ≤ q) :
    |rnd53 q - q| ≤ q * 2 ^ (-53 : ℤ) := by
  have hq0 : 0 < q := lt_of_lt_of_le (by positivity) h
  have hspec := floorLog2_spec q h
  have h2ne : (2 : ℚ) ≠ 0 := by norm_num
  rw [rnd53, if_neg (not_le.mpr hq0)]
  have hw : q * 2 ^ (-(floorLog2 q - 52)) * 2 ^ (floorLog2 q - 52) = q := by
    rw [mul_assoc, ← zpow_add₀ h2ne, neg_add_cancel, zpow_zero, mul_one]
  have key : (rne (q * 2 ^ (-(floorLog2 q - 52))) : ℚ) * 2 ^ (floorLog2 q - 52) - q =
      ((rne (q * 2 ^ (-(floorLog2 q - 52))) : ℚ) - q * 2 ^ (-(floorLog2 q - 52))) *
        2 ^ (floorLog2 q - 52) := by
    rw [sub_mul, hw]
  rw [key, abs_mul, abs_of_pos (zpow_pos (by norm_num : (0:ℚ) < 2) _)]
  have habs := rne_abs (q * 2 ^ (-(floorLog2 q - 52)))
  have hstep : |(rne (q * 2 ^ (-(floorLog2 q - 52))) : ℚ) -
      q * 2 ^ (-(floorLog2 q - 52))| * 2 ^ (floorLog2 q - 52) ≤
      (1 / 2) * 2 ^ (floorLog2 q - 52) :=
    mul_le_mul_of_nonneg_right habs (le_of_lt (zpow_pos (by norm_num) _))
  refine le_trans hstep ?_
  have hq52 : (2 : ℚ) ^ (floorLog2 q + 52 - 52) ≤ q := by
    simpa using hspec.1
  calc (1 / 2 : ℚ) * 2 ^ (floorLog2 q - 52)
      = 2 ^ (floorLog2 q) * 2 ^ (-53 : ℤ) := by
        rw [← zpow_add₀ h2ne]
        rw [show floorLog2 q + -53 = -1 + (floorLog2 q - 52) by ring]
        rw [zpow_add₀ h2ne]
        norm_num
    _ ≤ q * 2 ^ (-53 : ℤ) := by
        refine mul_le_mul_of_nonneg_right ?_ (le_of_lt (zpow_pos (by norm_num) _))
        simpa using hspec.1

lemma rnd53_le (q : ℚ) (h : q = 0 ∨ (2 : ℚ) ^ (-128 : ℤ) ≤ q) :
    rnd53 q ≤ q * (1 + 2 ^ (-53 : ℤ)) := by
  rcases h with h | h
  · rw [h, rnd53_nonpos 0 (le_refl 0), zero_mul]
  · have := rnd53_abs q h
    rw [abs_le] at this
    nlinarith [this.2]

lemma rnd53_ge (q : ℚ) (h : q = 0 ∨ (2 : ℚ) ^ (-128 : ℤ) ≤ q) :
    q * (1 - 2 ^ (-53 : ℤ)) ≤ rnd53 q := by
  rcases h with h | h
  · rw [h, rnd53_nonpos 0 (le_refl 0), zero_mul]
  · have := rnd53_abs q h
    rw [abs_le] at this
    nlinarith [this.1]

lemma castU32_le (q : ℚ) (hq : 0 ≤ q) : (castU32 q : ℚ) ≤ q := by
  unfold castU32
  have h1 : Min.min (U32 - 1) (Int.toNat ⌊q⌋) ≤ Int.toNat ⌊q⌋ := min_le_right _ _
  have h2 : ((Int.toNat ⌊q⌋ : ℤ)) = ⌊q⌋ := Int.toNat_of_nonneg (Int.floor_nonneg.mpr hq)
  have h3 : ((Int.toNat ⌊q⌋ : ℚ)) ≤ q := by
    have := Int.floor_le q
    rw [← h2] at this
    exact_mod_cast this
  calc ((Min.min (U32 - 1) (Int.toNat ⌊q⌋) : ℕ) : ℚ) ≤ ((Int.toNat ⌊q⌋ : ℕ) : ℚ) := by
        exact_mod_cast h1
    _ ≤ q := h3

lemma castU32_gt (q : ℚ) (hq : q < (U32 : ℚ)) : q - 1 < (castU32 q : ℚ) := by
  unfold castU32
  have hfl : ⌊q⌋ < (U32 : ℤ) := Int.floor_lt.mpr (by exact_mod_cast hq)
  have hmin : Min.min (U32 - 1) (Int.toNat ⌊q⌋) = Int.toNat ⌊q⌋ := by
    apply min_eq_right
    have : Int.toNat ⌊q⌋ ≤ U32 - 1 := by
      have := Int.toNat_le_toNat (by omega : ⌊q⌋ ≤ (U32 : ℤ) - 1)
      simpa [U32] using this
    exact this
  rw [hmin]
  have h1 : q - 1 < ((⌊q⌋ : ℤ) : ℚ) := Int.sub_one_lt_floor q
  have h2 : ((⌊q⌋ : ℤ) : ℚ) ≤ ((Int.toNat ⌊q⌋ : ℕ) : ℚ) := by
    exact_mod_cast Int.self_le_toNat ⌊q⌋
  linarith

/-! ## Theorems for the claims about the simple operations -/


/-- C5 counterexample: at `a = {min: 4294967295, pref: 4294967295}` and
`b = {min: 0, pref: 1}` — both valid (`min ≤ pref`) `u32` rules — the sum
`a + b` wraps its preferred component to `0`, so the result violates
`min ≤ pref`.  The claim that `a + b` always preserves the invariant is
therefore false on the code. -/
theorem c5_counterexample :
    (4294967295 ≤ 4294967295 ∧ 0 ≤ 1) ∧
    ¬ ((SizeRules.add ⟨4294967295, 4294967295⟩ ⟨0, 1⟩).a ≤
        (SizeRules.add ⟨4294967295, 4294967295⟩ ⟨0, 1⟩).b) := by
  constructor
  · exact ⟨le_refl _, Nat.zero_le _⟩
  · decide

/-- C5 (amended): for valid `u32` rules (`min ≤ pref`, components below
`2^32`), `a.max(b)` always preserves `min ≤ pref`, and `a + b` preserves it
provided the preferred sizes do not overflow (`a.pref + b.pref < 2^32`). -/
theorem c5_max_add_preserve_invariant (x y : SizeRules)
    (hx : x.a ≤ x.b) (hy : y.a ≤ y.b) :
    (x.max y).a ≤ (x.max y).b ∧
    (x.b + y.b < U32 → (x.add y).a ≤ (x.add y).b) := by
  constructor
  · exact max_le_max hx hy
  · intro hov
    have hab : x.a + y.a ≤ x.b + y.b := Nat.add_le_add hx hy
    have h1 : add32 x.a y.a = x.a + y.a := Nat.mod_eq_of_lt (lt_of_le_of_lt hab hov)
    have h2 : add32 x.b y.b = x.b + y.b := Nat.mod_eq_of_lt hov
    simp only [SizeRules.add, h1, h2]
    exact hab

/-- C5 witness: the amended theorem applied at `x = {2, 5}`, `y = {1, 4}`. -/
theorem c5_witness :
    ((SizeRules.max ⟨2, 5⟩ ⟨1, 4⟩).a ≤ (SizeRules.max ⟨2, 5⟩ ⟨1, 4⟩).b) ∧
    ((SizeRules.add ⟨2, 5⟩ ⟨1, 4⟩).a ≤ (SizeRules.add ⟨2, 5⟩ ⟨1, 4⟩).b) := by
  have h := c5_max_add_preserve_invariant ⟨2, 5⟩ ⟨1, 4⟩ (by decide) (by decide)
  exact ⟨h.1, h.2 (by decide)⟩

/-- C6: `SizeRules::variable(min, pref)` panics exactly when `min > pref`,
and for `min ≤ pref` it returns the rules `{min, pref}`. -/
theorem c6_variable_panics_iff (min pref : ℕ) :
    (SizeRules.variable' min pref = none ↔ pref < min) ∧
    (min ≤ pref → SizeRules.variable' min pref = some ⟨min, pref⟩) := by
  constructor
  · unfold SizeRules.variable'
    split
    · simp_all
    · simp_all
  · intro h
    unfold SizeRules.variable'
    simp [Nat.not_lt.mpr h]

/-- C6 witness: `variable(3, 7)` succeeds, `variable(7, 3)` panics. -/
theorem c6_witness :
    SizeRules.variable' 3 7 = some ⟨3, 7⟩ ∧ SizeRules.variable' 7 3 = none := by
  refine ⟨(c6_variable_panics_iff 3 7).2 (by decide), ?_⟩
  exact (c6_variable_panics_iff 7 3).1.mpr (by decide)

/-- C7: `Margins::size_rules` returns the fixed rule
`first + last + inter * (count - 1)` on the measured axis, computed in `u32`
arithmetic, where `count - 1` is `u32::saturating_sub` (truncated `Nat`
subtraction), so `columns = 0` or `rows = 0` never underflows; in particular
at zero count the result is `fixed(first + last)`. -/
theorem c7_margins_size_rules (m : Margins) (axis : AxisInfo) (columns rows : ℕ) :
    (m.size_rules axis columns rows =
      SizeRules.fixed ((if !axis.vertical then
          m.first.1 + m.last.1 + m.inter.1 * (columns - 1)
        else
          m.first.2 + m.last.2 + m.inter.2 * (rows - 1)) % U32)) ∧
    (axis.vertical = false →
      m.size_rules axis 0 rows = SizeRules.fixed ((m.first.1 + m.last.1) % U32)) ∧
    (axis.vertical = true →
      m.size_rules axis columns 0 = SizeRules.fixed ((m.first.2 + m.last.2) % U32)) := by
  have key : ∀ f l i c : ℕ, add32 (add32 f l) (mul32 i c) = (f + l + i * c) % U32 := by
    intro f l i c
    unfold add32 mul32
    exact (Nat.add_mod _ _ _).symm
  refine ⟨?_, ?_, ?_⟩
  · unfold Margins.size_rules
    cases h : axis.vertical <;> simp [h, key]
  · intro h
    simp [Margins.size_rules, h, key]
  · intro h
    simp [Margins.size_rules, h, key]

/-- C7 witness: the theorem applied at a concrete margin value, with
`columns = 0` on the horizontal axis. -/
theorem c7_witness :
    Margins.size_rules ⟨(3, 4), (5, 6), (7, 8)⟩ ⟨false, false, 0⟩ 0 9 =
      SizeRules.fixed 8 := by
  have h := (c7_margins_size_rules ⟨(3, 4), (5, 6), (7, 8)⟩ ⟨false, false, 0⟩ 0 9).2.1 rfl
  simpa using h

/-- C8: after `set_at_least_op_sub(x, y)`, the result dominates the clamped
differences (`x.min - y.min` when positive, `x.pref - y.pref` when positive),
dominates the previous value component-wise, and satisfies `min ≤ pref`. -/
theorem c8_set_at_least_op_sub (s x y : SizeRules) :
    (y.a < x.a → x.a - y.a ≤ (s.set_at_least_op_sub x y).a) ∧
    (y.b < x.b → x.b - y.b ≤ (s.set_at_least_op_sub x y).b) ∧
    s.a ≤ (s.set_at_least_op_sub x y).a ∧
    s.b ≤ (s.set_at_least_op_sub x y).b ∧
    (s.set_at_least_op_sub x y).a ≤ (s.set_at_least_op_sub x y).b := by
  unfold SizeRules.set_at_least_op_sub
  refine ⟨?_, ?_, ?_, ?_, ?_⟩
  · intro h
    simp only [if_pos h]
    exact le_max_right _ _
  · intro h
    simp only [if_pos h]
    exact le_trans (le_max_right _ _) (le_max_right _ _)
  · split
    · exact le_max_left _ _
    · exact le_refl _
  · refine le_trans ?_ (le_max_right _ _)
    split
    · exact le_max_left _ _
    · exact le_refl _
  · exact le_max_left _ _

/-- C8 witness: the theorem applied at `self = {5, 6}`, `x = {9, 20}`,
`y = {2, 4}` (both differences positive). -/
theorem c8_witness :
    2 < 9 ∧ 9 - 2 ≤ (SizeRules.set_at_least_op_sub ⟨5, 6⟩ ⟨9, 20⟩ ⟨2, 4⟩).a ∧
    20 - 4 ≤ (SizeRules.set_at_least_op_sub ⟨5, 6⟩ ⟨9, 20⟩ ⟨2, 4⟩).b ∧
    (SizeRules.set_at_least_op_sub ⟨5, 6⟩ ⟨9, 20⟩ ⟨2, 4⟩).a ≤
      (SizeRules.set_at_least_op_sub ⟨5, 6⟩ ⟨9, 20⟩ ⟨2, 4⟩).b := by
  have h := c8_set_at_least_op_sub ⟨5, 6⟩ ⟨9, 20⟩ ⟨2, 4⟩
  exact ⟨by decide, h.1 (by decide), h.2.1 (by decide), h.2.2.2.2⟩

/-! ## Evaluation toolkit for the float model at concrete inputs -/

lemma floorLog2_eq (q : ℚ) (L : ℤ) (h : (2 : ℚ) ^ (-128 : ℤ) ≤ q)
    (h1 : (2 : ℚ) ^ L ≤ q) (h2 : q < (2 : ℚ) ^ (L + 1)) : floorLog2 q = L := by
  have hspec := floorLog2_spec q h
  by_contra hne
  rcases lt_or_gt_of_ne hne with hlt | hgt
  · have : q < q :=
      lt_of_lt_of_le hspec.2 (le_trans (zpow_le_zpow_right₀ one_le_two (by omega)) h1)
    exact absurd this (lt_irrefl q)
  · have : q < q :=
      lt_of_lt_of_le h2 (le_trans (zpow_le_zpow_right₀ one_le_two (by omega)) hspec.1)
    exact absurd this (lt_irrefl q)

lemma rne_eq_of_lt (w : ℚ) (z : ℤ) (hz1 : (z : ℚ) ≤ w) (hz2 : w < z + 1)
    (hlt : w - z < 1 / 2) : rne w = z := by
  have hfl : ⌊w⌋ = z := Int.floor_eq_iff.mpr ⟨hz1, hz2⟩
  unfold rne
  rw [hfl, if_pos]
  exact hlt

lemma rnd53_eval (q : ℚ) (L m : ℤ) (h : (2 : ℚ) ^ (-128 : ℤ) ≤ q)
    (h1 : (2 : ℚ) ^ L ≤ q) (h2 : q < (2 : ℚ) ^ (L + 1))
    (hm : rne (q * 2 ^ (-(L - 52))) = m) :
    rnd53 q = (m : ℚ) * 2 ^ (L - 52) := by
  have hq0 : 0 < q := lt_of_lt_of_le (by positivity) h
  rw [rnd53, if_neg (not_le.mpr hq0), floorLog2_eq q L h h1 h2, hm]

lemma castU32_eval (q : ℚ) (z : ℕ) (hz1 : (z : ℚ) ≤ q) (hz2 : q < z + 1)
    (hsmall : z < U32) : castU32 q = z := by
  have hfl : ⌊q⌋ = (z : ℤ) := Int.floor_eq_iff.mpr ⟨by exact_mod_cast hz1, by exact_mod_cast hz2⟩
  unfold castU32
  rw [hfl, Int.toNat_natCast]
  exact min_eq_right (by omega)

/-! ## Shared unfolding lemmas for `solveSeq` -/

lemma solveSeq_surplus_eq (out : List ℕ) (rules : List SizeRules) (target : ℕ)
    (hlen : rules.length = out.length + 1) (hN : out.length ≠ 0)
    (hagg : (rules.getD out.length SizeRules.EMPTY).a ≤ target) :
    solveSeq out rules target =
      surplusCase (rules.take out.length) out.length
        (rules.getD out.length SizeRules.EMPTY) target := by
  rw [solveSeq, if_pos hlen, if_neg hN, if_pos hagg]

lemma solveSeq_deficit_eq (out : List ℕ) (rules : List SizeRules) (target : ℕ)
    (hlen : rules.length = out.length + 1) (hN : out.length ≠ 0)
    (hagg : ¬ (rules.getD out.length SizeRules.EMPTY).a ≤ target) :
    solveSeq out rules target =
      shrinkLoop ((rules.getD out.length SizeRules.EMPTY).a - target + 1)
        (initScan (rules.take out.length)).1
        ((rules.getD out.length SizeRules.EMPTY).a - target)
        (initScan (rules.take out.length)).2.1
        (initScan (rules.take out.length)).2.2.1
        (initScan (rules.take out.length)).2.2.2 := by
  rw [solveSeq, if_pos hlen, if_neg hN, if_neg hagg]

/-! ## C1: the deficit case does not always sum to `target` -/

/-- C1: evaluating the embedded `solve_seq` at the spec's own scenario 2
(three children `{min:10, pref:10}`, aggregate `{min:30, pref:30}`,
target `10`) yields `[3, 3, 3]`, whose sum is `9`, not the claimed `10`:
the `step == 0` fallback tests `excess == 0` only after decrementing
`out[n]`, so it removes `excess + 1` units instead of `excess`. -/
theorem c1_deficit_sum_bug :
    solveSeq [0, 0, 0] [⟨10, 10⟩, ⟨10, 10⟩, ⟨10, 10⟩, ⟨30, 30⟩] 10 =
      some [3, 3, 3] ∧ ([3, 3, 3] : List ℕ).sum = 9 := by
  exact ⟨by decide, by decide⟩

/-! ## C3: the concrete surplus scenario -/

lemma f64div_20_30 : f64div 20 30 = (6004799503160661 : ℚ) * 2 ^ (-53 : ℤ) := by
  have hq : ((20 : ℕ) : ℚ) / ((30 : ℕ) : ℚ) = 2 / 3 := by norm_num
  rw [f64div, hq]
  have hL : ((-1 : ℤ) - 52) = -53 := by norm_num
  have h := rnd53_eval (2 / 3) (-1) 6004799503160661 (by norm_num) (by norm_num)
    (by norm_num) ?_
  · rwa [hL] at h
  · have hE : (-((-1 : ℤ) - 52)) = (53 : ℤ) := by norm_num
    rw [hE]
    refine rne_eq_of_lt _ _ ?_ ?_ ?_
    · push_cast
      rw [show ((2 : ℚ) ^ (53 : ℤ)) = ((9007199254740992 : ℚ)) by norm_num]
      norm_num
    · push_cast
      rw [show ((2 : ℚ) ^ (53 : ℤ)) = ((9007199254740992 : ℚ)) by norm_num]
      norm_num
    · push_cast
      rw [show ((2 : ℚ) ^ (53 : ℤ)) = ((9007199254740992 : ℚ)) by norm_num]
      norm_num

lemma f64mul_x_10 :
    f64mul ((6004799503160661 : ℚ) * 2 ^ (-53 : ℤ)) 10 =
      (7505999378950826 : ℚ) * 2 ^ (-50 : ℤ) := by
  rw [f64mul]
  have hL : ((2 : ℤ) - 52) = -50 := by norm_num
  have h := rnd53_eval ((6004799503160661 : ℚ) * 2 ^ (-53 : ℤ) * ((10 : ℕ) : ℚ)) 2
    7505999378950826 ?_ ?_ ?_ ?_
  · rwa [hL] at h
  · rw [show ((2 : ℚ) ^ (-53 : ℤ)) = 1 / ((9007199254740992 : ℚ)) by norm_num]
    rw [show ((2 : ℚ) ^ (-128 : ℤ)) =
      1 / ((340282366920938463463374607431768211456 : ℚ)) by norm_num]
    norm_num
  · rw [show ((2 : ℚ) ^ (-53 : ℤ)) = 1 / ((9007199254740992 : ℚ)) by norm_num]
    norm_num
  · rw [show ((2 : ℚ) ^ (-53 : ℤ)) = 1 / ((9007199254740992 : ℚ)) by norm_num]
    rw [show ((2 : ℚ) ^ ((2 : ℤ) + 1)) = (8 : ℚ) by norm_num]
    norm_num
  · have hE : (-((2 : ℤ) - 52)) = (50 : ℤ) := by norm_num
    rw [hE]
    refine rne_eq_of_lt _ _ ?_ ?_ ?_ <;>
    · push_cast
      rw [show ((2 : ℚ) ^ (-53 : ℤ)) = 1 / ((9007199254740992 : ℚ)) by norm_num,
        show ((2 : ℚ) ^ (50 : ℤ)) = ((1125899906842624 : ℚ)) by norm_num]
      norm_num

lemma f64mul_x_20 :
    f64mul ((6004799503160661 : ℚ) * 2 ^ (-53 : ℤ)) 20 =
      (7505999378950826 : ℚ) * 2 ^ (-49 : ℤ) := by
  rw [f64mul]
  have hL : ((3 : ℤ) - 52) = -49 := by norm_num
  have h := rnd53_eval ((6004799503160661 : ℚ) * 2 ^ (-53 : ℤ) * ((20 : ℕ) : ℚ)) 3
    7505999378950826 ?_ ?_ ?_ ?_
  · rwa [hL] at h
  · rw [show ((2 : ℚ) ^ (-53 : ℤ)) = 1 / ((9007199254740992 : ℚ)) by norm_num]
    rw [show ((2 : ℚ) ^ (-128 : ℤ)) =
      1 / ((340282366920938463463374607431768211456 : ℚ)) by norm_num]
    norm_num
  · rw [show ((2 : ℚ) ^ (-53 : ℤ)) = 1 / ((9007199254740992 : ℚ)) by norm_num]
    norm_num
  · rw [show ((2 : ℚ) ^ (-53 : ℤ)) = 1 / ((9007199254740992 : ℚ)) by norm_num]
    rw [show ((2 : ℚ) ^ ((3 : ℤ) + 1)) = (16 : ℚ) by norm_num]
    norm_num
  · have hE : (-((3 : ℤ) - 52)) = (49 : ℤ) := by norm_num
    rw [hE]
    refine rne_eq_of_lt _ _ ?_ ?_ ?_ <;>
    · push_cast
      rw [show ((2 : ℚ) ^ (-53 : ℤ)) = 1 / ((9007199254740992 : ℚ)) by norm_num,
        show ((2 : ℚ) ^ (49 : ℤ)) = ((562949953421312 : ℚ)) by norm_num]
      norm_num

lemma castU32_x10 : castU32 ((7505999378950826 : ℚ) * 2 ^ (-50 : ℤ)) = 6 := by
  refine castU32_eval _ 6 ?_ ?_ (by norm_num [U32]) <;>
  · rw [show ((2 : ℚ) ^ (-50 : ℤ)) = 1 / ((1125899906842624 : ℚ)) by norm_num]
    norm_num

lemma castU32_x20 : castU32 ((7505999378950826 : ℚ) * 2 ^ (-49 : ℤ)) = 13 := by
  refine castU32_eval _ 13 ?_ ?_ (by norm_num [U32]) <;>
  · rw [show ((2 : ℚ) ^ (-49 : ℤ)) = 1 / ((562949953421312 : ℚ)) by norm_num]
    norm_num

/-- C3: two children `{min:10, pref:20}` and `{min:10, pref:30}`, aggregate
`{min:20, pref:50}`, target `40`: the preliminary `f64` sizes floor to `16`
and `23`, the remainder `1` goes to child 0, and the final output is
`[17, 23]`. -/
theorem c3_concrete_scenario :
    solveSeq [0, 0] [⟨10, 20⟩, ⟨10, 30⟩, ⟨20, 50⟩] 40 = some [17, 23] := by
  have hpre : surplusPre [⟨10, 20⟩, ⟨10, 30⟩] 2 20 30 = [16, 23] := by
    rw [surplusPre, if_pos (by norm_num)]
    have e1 : sub32 20 10 = 10 := by decide
    have e2 : sub32 30 10 = 20 := by decide
    simp only [List.map_cons, List.map_nil, e1, e2, f64div_20_30, f64mul_x_10,
      f64mul_x_20, castU32_x10, castU32_x20]
    decide
  have hstep := solveSeq_surplus_eq [0, 0] [⟨10, 20⟩, ⟨10, 30⟩, ⟨20, 50⟩] 40
    (by decide) (by decide) (by decide)
  rw [hstep]
  have htake : (([⟨10, 20⟩, ⟨10, 30⟩, ⟨20, 50⟩] : List SizeRules).take 2) =
      [⟨10, 20⟩, ⟨10, 30⟩] := by decide
  have hagg : (([⟨10, 20⟩, ⟨10, 30⟩, ⟨20, 50⟩] : List SizeRules).getD 2
      SizeRules.EMPTY) = ⟨20, 50⟩ := by decide
  rw [show (([0, 0] : List ℕ).length) = 2 from rfl] at *
  rw [htake, hagg, surplusCase]
  have hsub : sub32 (50 : ℕ) 20 = 30 := by decide
  rw [show ((40 : ℕ) - (⟨20, 50⟩ : SizeRules).a) = 20 from rfl, hsub, hpre]
  decide

/-! ## C10: the deficit loop terminates within `excess + 1` iterations -/

lemma shrinkLoop_fuel (excess : ℕ) :
    ∀ (fuel : ℕ) (out : List ℕ) (largest num_equal next_largest : ℕ),
    1 ≤ num_equal → excess + 1 ≤ fuel →
    shrinkLoop fuel out excess largest num_equal next_largest =
      shrinkLoop (excess + 1) out excess largest num_equal next_largest := by
  induction excess using Nat.strong_induction_on with
  | _ excess ih =>
    intro fuel out largest num_equal next_largest hne hfuel
    obtain ⟨f, rfl⟩ : ∃ f, fuel = f + 1 := ⟨fuel - 1, by omega⟩
    rw [shrinkLoop, shrinkLoop]
    by_cases hex : excess = 0
    · rw [if_pos hex, if_pos hex]
    · rw [if_neg hex, if_neg hex]
      by_cases hstep : Min.min (excess / num_equal) (largest - next_largest) = 0
      · rw [if_pos hstep, if_pos hstep]
      · rw [if_neg hstep, if_neg hstep]
        have hstep1 : 1 ≤ Min.min (excess / num_equal) (largest - next_largest) :=
          Nat.pos_of_ne_zero hstep
        have hdiv : 1 ≤ excess / num_equal := le_trans hstep1 (min_le_left _ _)
        have hmul : Min.min (excess / num_equal) (largest - next_largest) * num_equal ≤
            excess :=
          le_trans (Nat.mul_le_mul_right _ (min_le_left _ _))
            (Nat.div_mul_le_self excess num_equal)
        have hpos : 1 ≤ Min.min (excess / num_equal) (largest - next_largest) * num_equal :=
          Nat.one_le_iff_ne_zero.mpr (Nat.mul_ne_zero (by omega) (by omega))
        have hlt : excess - Min.min (excess / num_equal) (largest - next_largest) *
            num_equal < excess := by omega
        have hne' : 1 ≤ num_equal + (shrinkPass largest next_largest
            (Min.min (excess / num_equal) (largest - next_largest)) out 0 0).2.1 := by
          omega
        rw [ih _ hlt f _ _ _ _ hne' (by omega), ih _ hlt excess _ _ _ _ hne' (by omega)]

lemma shrinkLoop_isSome (excess : ℕ) :
    ∀ (out : List ℕ) (largest num_equal next_largest : ℕ), 1 ≤ num_equal →
    (shrinkLoop (excess + 1) out excess largest num_equal next_largest).isSome = true := by
  induction excess using Nat.strong_induction_on with
  | _ excess ih =>
    intro out largest num_equal next_largest hne
    rw [shrinkLoop]
    by_cases hex : excess = 0
    · rw [if_pos hex]
      rfl
    · rw [if_neg hex]
      by_cases hstep : Min.min (excess / num_equal) (largest - next_largest) = 0
      · rw [if_pos hstep]
        rfl
      · rw [if_neg hstep]
        have hstep1 : 1 ≤ Min.min (excess / num_equal) (largest - next_largest) :=
          Nat.pos_of_ne_zero hstep
        have hdiv : 1 ≤ excess / num_equal := le_trans hstep1 (min_le_left _ _)
        have hmul : Min.min (excess / num_equal) (largest - next_largest) * num_equal ≤
            excess :=
          le_trans (Nat.mul_le_mul_right _ (min_le_left _ _))
            (Nat.div_mul_le_self excess num_equal)
        have hpos : 1 ≤ Min.min (excess / num_equal) (largest - next_largest) * num_equal :=
          Nat.one_le_iff_ne_zero.mpr (Nat.mul_ne_zero (by omega) (by omega))
        have hlt : excess - Min.min (excess / num_equal) (largest - next_largest) *
            num_equal < excess := by omega
        have hne' : 1 ≤ num_equal + (shrinkPass largest next_largest
            (Min.min (excess / num_equal) (largest - next_largest)) out 0 0).2.1 := by
          omega
        rw [shrinkLoop_fuel _ excess _ _ _ _ hne' (by omega)]
        exact ih _ hlt _ _ _ _ hne'

lemma initScanGo_num_pos :
    ∀ (cs : List SizeRules) (L C NL : ℕ), 1 ≤ C →
    1 ≤ (initScanGo cs L C NL).2.2.1 := by
  intro cs
  induction cs with
  | nil =>
    intro L C NL h
    simpa [initScanGo] using h
  | cons r rest ih =>
    intro L C NL h
    rw [initScanGo]
    split
    · exact ih _ _ _ (by omega)
    · split
      · exact ih _ _ _ le_rfl
      · split
        · exact ih _ _ _ h
        · exact ih _ _ _ h

lemma initScan_num_pos (children : List SizeRules) (h : children ≠ []) :
    1 ≤ (initScan children).2.2.1 := by
  obtain ⟨r, rest, rfl⟩ : ∃ r rest, children = r :: rest := by
    cases children with
    | nil => exact absurd rfl h
    | cons r rest => exact ⟨r, rest, rfl⟩
  rw [initScan, initScanGo]
  split
  · exact initScanGo_num_pos _ _ _ _ (by omega)
  · split
    · exact initScanGo_num_pos _ _ _ _ le_rfl
    · rename_i h1 h2
      exact absurd (Nat.pos_of_ne_zero h1) h2

/-- C10: `solve_seq` terminates on every input.  For every call that enters
the deficit case, running the `while` loop with any iteration budget of at
least `excess + 1` gives the same (defined, `some`) result as `solve_seq`
itself: each productive iteration removes `step * num_equal ≥ 1` from
`excess`, and an iteration with `step == 0` leaves the loop at once. -/
theorem c10_solve_seq_terminates (out : List ℕ) (rules : List SizeRules)
    (target : ℕ) (hlen : rules.length = out.length + 1) (hN : out.length ≠ 0)
    (hdef : target < (rules.getD out.length SizeRules.EMPTY).a) :
    ∀ fuel, (rules.getD out.length SizeRules.EMPTY).a - target + 1 ≤ fuel →
      (shrinkLoop fuel (initScan (rules.take out.length)).1
          ((rules.getD out.length SizeRules.EMPTY).a - target)
          (initScan (rules.take out.length)).2.1
          (initScan (rules.take out.length)).2.2.1
          (initScan (rules.take out.length)).2.2.2 = solveSeq out rules target) ∧
      (solveSeq out rules target).isSome = true := by
  intro fuel hfuel
  have htake : rules.take out.length ≠ [] := by
    have : (rules.take out.length).length = out.length := by
      rw [List.length_take]
      omega
    intro hempty
    rw [hempty] at this
    simp at this
    omega
  have hnum := initScan_num_pos _ htake
  have heq := solveSeq_deficit_eq out rules target hlen hN (not_le.mpr hdef)
  constructor
  · rw [heq]
    exact shrinkLoop_fuel _ fuel _ _ _ _ hnum hfuel
  · rw [heq]
    exact shrinkLoop_isSome _ _ _ _ _ hnum

/-- C10 witness: the termination theorem applied to the concrete deficit call
of scenario 2 with iteration budget `25 ≥ excess + 1 = 21`. -/
theorem c10_witness :
    (shrinkLoop 25
        (initScan (([⟨10, 10⟩, ⟨10, 10⟩, ⟨10, 10⟩, ⟨30, 30⟩] : List SizeRules).take 3)).1
        ((([⟨10, 10⟩, ⟨10, 10⟩, ⟨10, 10⟩, ⟨30, 30⟩] : List SizeRules).getD 3
            SizeRules.EMPTY).a - 10)
        (initScan (([⟨10, 10⟩, ⟨10, 10⟩, ⟨10, 10⟩, ⟨30, 30⟩] : List SizeRules).take 3)).2.1
        (initScan (([⟨10, 10⟩, ⟨10, 10⟩, ⟨10, 10⟩, ⟨30, 30⟩] : List SizeRules).take 3)).2.2.1
        (initScan (([⟨10, 10⟩, ⟨10, 10⟩, ⟨10, 10⟩, ⟨30, 30⟩] : List SizeRules).take 3)).2.2.2 =
      solveSeq [0, 0, 0] [⟨10, 10⟩, ⟨10, 10⟩, ⟨10, 10⟩, ⟨30, 30⟩] 10) ∧
    (solveSeq [0, 0, 0] [⟨10, 10⟩, ⟨10, 10⟩, ⟨10, 10⟩, ⟨30, 30⟩] 10).isSome = true := by
  exact c10_solve_seq_terminates [0, 0, 0] [⟨10, 10⟩, ⟨10, 10⟩, ⟨10, 10⟩, ⟨30, 30⟩] 10
    (by decide) (by decide) (by decide) 25 (by decide)

/-! ## C9: determinism and remainder distribution in the surplus case -/

lemma surplusPreOf_length (out : List ℕ) (rules : List SizeRules) (target : ℕ)
    (hlen : rules.length = out.length + 1) :
    (surplusPreOf out rules target).length = out.length := by
  rw [surplusPreOf, surplusPre]
  split <;> rw [List.length_map, List.length_take] <;> omega

lemma addOneFirst_getD (l : List ℕ) :
    ∀ (k n : ℕ), n < l.length →
    (addOneFirst k l).getD n 0 =
      if n < k then add32 (l.getD n 0) 1 else l.getD n 0 := by
  induction l with
  | nil =>
    intro k n hn
    simp at hn
  | cons a rest ih =>
    intro k n hn
    cases k with
    | zero => simp [addOneFirst]
    | succ k' =>
      cases n with
      | zero => simp [addOneFirst]
      | succ n' =>
        simp only [addOneFirst, List.getD_cons_succ]
        rw [ih k' n' (by simpa using hn)]
        simp [Nat.succ_lt_succ_iff]

/-- C9: `solve_seq` is deterministic (it is a pure function of its inputs,
so two runs coincide), and whenever a surplus-case call returns, the result
is exactly the preliminary floored sizes with `1` added to each of the first
`rem = target - sum` children in index order and to no other child. -/
theorem c9_deterministic_remainder (out : List ℕ) (rules : List SizeRules)
    (target : ℕ) (res : List ℕ)
    (hlen : rules.length = out.length + 1) (hN : out.length ≠ 0)
    (hagg : (rules.getD out.length SizeRules.EMPTY).a ≤ target)
    (hres : solveSeq out rules target = some res) :
    (solveSeq out rules target = solveSeq out rules target) ∧
    sum32 (surplusPreOf out rules target) ≤ target ∧
    target - sum32 (surplusPreOf out rules target) ≤ out.length ∧
    res = addOneFirst (target - sum32 (surplusPreOf out rules target))
      (surplusPreOf out rules target) ∧
    (∀ n, n < out.length →
      res.getD n 0 = if n < target - sum32 (surplusPreOf out rules target)
        then add32 ((surplusPreOf out rules target).getD n 0) 1
        else (surplusPreOf out rules target).getD n 0) := by
  rw [solveSeq_surplus_eq out rules target hlen hN hagg, surplusCase] at hres
  have hP : surplusPre (rules.take out.length) out.length
      (target - (rules.getD out.length SizeRules.EMPTY).a)
      (sub32 (rules.getD out.length SizeRules.EMPTY).b
        (rules.getD out.length SizeRules.EMPTY).a) = surplusPreOf out rules target := rfl
  rw [hP] at hres
  by_cases h1 : sum32 (surplusPreOf out rules target) ≤ target
  · rw [if_pos h1] at hres
    by_cases h2 : target - sum32 (surplusPreOf out rules target) ≤ out.length
    · rw [if_pos h2] at hres
      have hres' : res = addOneFirst (target - sum32 (surplusPreOf out rules target))
          (surplusPreOf out rules target) := by
        injection hres with h
        exact h.symm
      refine ⟨rfl, h1, h2, hres', ?_⟩
      intro n hn
      rw [hres']
      apply addOneFirst_getD
      rw [surplusPreOf_length out rules target hlen]
      exact hn
    · rw [if_neg h2] at hres
      exact absurd hres (by simp)
  · rw [if_neg h1] at hres
    exact absurd hres (by simp)

/-- C9 witness: the theorem applied to the call with children `{5,5}`,
`{7,7}`, aggregate `{12,12}`, target `20`, whose result is `[9, 11]`. -/
theorem c9_witness :
    ([9, 11] : List ℕ) = addOneFirst
      (20 - sum32 (surplusPreOf [0, 0] [⟨5, 5⟩, ⟨7, 7⟩, ⟨12, 12⟩] 20))
      (surplusPreOf [0, 0] [⟨5, 5⟩, ⟨7, 7⟩, ⟨12, 12⟩] 20) :=
  (c9_deterministic_remainder [0, 0] [⟨5, 5⟩, ⟨7, 7⟩, ⟨12, 12⟩] 20 [9, 11]
    (by decide) (by decide) (by decide) (by decide)).2.2.2.1

/-! ## C2: the surplus case sums exactly to `target` and respects minimums -/

lemma add32_eq (a b : ℕ) (h : a + b < U32) : add32 a b = a + b := Nat.mod_eq_of_lt h

lemma sub32_eq (a b : ℕ) (h1 : b ≤ a) (h2 : a < U32) : sub32 a b = a - b := by
  have hsplit : a + (U32 - b) = (a - b) + U32 := by
    have : b < U32 := by omega
    omega
  rw [sub32, hsplit, Nat.add_mod_right, Nat.mod_eq_of_lt (by omega)]

lemma elem_le_sum {l : List ℕ} {a : ℕ} (h : a ∈ l) : a ≤ l.sum := by
  induction l with
  | nil => simp at h
  | cons b rest ih =>
    rcases List.mem_cons.mp h with rfl | h'
    · simp
    · simp only [List.sum_cons]
      exact le_trans (ih h') (Nat.le_add_left _ _)

lemma foldl_add32_eq (l : List ℕ) : ∀ c, c + l.sum < U32 → l.foldl add32 c = c + l.sum := by
  induction l with
  | nil =>
    intro c h
    simp
  | cons a rest ih =>
    intro c h
    simp only [List.foldl_cons, List.sum_cons] at *
    rw [add32_eq c a (by omega), ih (c + a) (by omega)]
    omega

lemma sum32_eq_sum (l : List ℕ) (h : l.sum < U32) : sum32 l = l.sum := by
  have h0 := foldl_add32_eq l 0 (by omega)
  simpa [sum32] using h0

lemma sum_map_add (l : List SizeRules) (f g : SizeRules → ℕ) :
    (l.map fun r => f r + g r).sum = (l.map f).sum + (l.map g).sum := by
  induction l with
  | nil => rfl
  | cons r rest ih =>
    simp only [List.map_cons, List.sum_cons, ih]
    omega

lemma sum_map_sub (l : List SizeRules) (h : ∀ r ∈ l, r.a ≤ r.b) :
    (l.map fun r => r.b - r.a).sum =
      (l.map SizeRules.b).sum - (l.map SizeRules.a).sum := by
  induction l with
  | nil => rfl
  | cons r rest ih =>
    have hr := h r (List.mem_cons_self r rest)
    have hrest : ∀ x ∈ rest, x.a ≤ x.b := fun x hx => h x (List.mem_cons_of_mem _ hx)
    have hsum : (rest.map SizeRules.a).sum ≤ (rest.map SizeRules.b).sum :=
      List.sum_le_sum (fun x hx => hrest x hx)
    simp only [List.map_cons, List.sum_cons, ih hrest]
    omega

lemma getD_map (l : List SizeRules) (f : SizeRules → ℕ) :
    ∀ n, n < l.length → (l.map f).getD n 0 = f (l.getD n SizeRules.EMPTY) := by
  induction l with
  | nil =>
    intro n h
    simp at h
  | cons r rest ih =>
    intro n h
    cases n with
    | zero => simp
    | succ n' => simpa using ih n' (by simpa using h)

lemma getD_take (l : List SizeRules) : ∀ (N n : ℕ), n < N →
    (l.take N).getD n SizeRules.EMPTY = l.getD n SizeRules.EMPTY := by
  induction l with
  | nil =>
    intro N n h
    simp
  | cons r rest ih =>
    intro N n h
    cases N with
    | zero => omega
    | succ N' =>
      cases n with
      | zero => simp
      | succ n' => simpa using ih N' n' (by omega)

lemma addOneFirst_length : ∀ (k : ℕ) (l : List ℕ), (addOneFirst k l).length = l.length := by
  intro k l
  induction l generalizing k with
  | nil => cases k <;> rfl
  | cons a rest ih =>
    cases k with
    | zero => rfl
    | succ k' => simpa [addOneFirst] using ih k'

lemma addOneFirst_sum (l : List ℕ) : ∀ k, k ≤ l.length → (∀ a ∈ l, a + 1 < U32) →
    (addOneFirst k l).sum = l.sum + k := by
  induction l with
  | nil =>
    intro k hk _
    have hk0 : k = 0 := by simpa using hk
    subst hk0
    rfl
  | cons a rest ih =>
    intro k hk hb
    cases k with
    | zero => simp [addOneFirst]
    | succ k' =>
      simp only [addOneFirst, List.sum_cons]
      rw [add32_eq a 1 (hb a (List.mem_cons_self a rest)),
        ih k' (by simpa using hk) (fun x hx => hb x (List.mem_cons_of_mem _ hx))]
      omega

lemma f64mul_nonneg (x : ℚ) (d : ℕ) : 0 ≤ f64mul x d := by
  rw [f64mul]
  exact rnd53_nonneg _

lemma f64mul_le (x : ℚ) (d : ℕ) (hx : 0 ≤ x)
    (hxlow : x = 0 ∨ (2 : ℚ) ^ (-128 : ℤ) ≤ x) :
    f64mul x d ≤ x * (d : ℚ) * (1 + 2 ^ (-53 : ℤ)) := by
  rcases hxlow with rfl | hxl
  · simp [f64mul, rnd53_nonpos 0 le_rfl]
  · rcases Nat.eq_zero_or_pos d with rfl | hd
    · simp [f64mul, rnd53_nonpos 0 le_rfl]
    · have hd1 : (1 : ℚ) ≤ (d : ℚ) := by exact_mod_cast hd
      have hxd : (2 : ℚ) ^ (-128 : ℤ) ≤ x * (d : ℚ) := by
        calc (2 : ℚ) ^ (-128 : ℤ) ≤ x := hxl
          _ = x * 1 := (mul_one x).symm
          _ ≤ x * (d : ℚ) := mul_le_mul_of_nonneg_left hd1 hx
      rw [f64mul]
      exact rnd53_le _ (Or.inr hxd)

lemma f64mul_ge (x : ℚ) (d : ℕ) (hx : 0 ≤ x)
    (hxlow : x = 0 ∨ (2 : ℚ) ^ (-128 : ℤ) ≤ x) :
    x * (d : ℚ) * (1 - 2 ^ (-53 : ℤ)) ≤ f64mul x d := by
  rcases hxlow with rfl | hxl
  · simp [f64mul, rnd53_nonpos 0 le_rfl]
  · rcases Nat.eq_zero_or_pos d with rfl | hd
    · simp [f64mul, rnd53_nonpos 0 le_rfl]
    · have hd1 : (1 : ℚ) ≤ (d : ℚ) := by exact_mod_cast hd
      have hxd : (2 : ℚ) ^ (-128 : ℤ) ≤ x * (d : ℚ) := by
        calc (2 : ℚ) ^ (-128 : ℤ) ≤ x := hxl
          _ = x * 1 := (mul_one x).symm
          _ ≤ x * (d : ℚ) := mul_le_mul_of_nonneg_left hd1 hx
      rw [f64mul]
      exact rnd53_ge _ (Or.inr hxd)

lemma sum_castU32_ub (x : ℚ) (hx : 0 ≤ x)
    (hxlow : x = 0 ∨ (2 : ℚ) ^ (-128 : ℤ) ≤ x) :
    ∀ (C : List SizeRules), (∀ r ∈ C, r.a ≤ r.b ∧ r.b < U32) →
    (((C.map fun r => castU32 (f64mul x (sub32 r.b r.a))).sum : ℕ) : ℚ) ≤
      x * (1 + 2 ^ (-53 : ℤ)) * (((C.map fun r => r.b - r.a).sum : ℕ) : ℚ) := by
  intro C
  induction C with
  | nil =>
    intro _
    simp
  | cons r rest ih =>
    intro hvalid
    have hr := hvalid r (List.mem_cons_self r rest)
    have hrest := fun s hs => hvalid s (List.mem_cons_of_mem r hs)
    have hsub : sub32 r.b r.a = r.b - r.a := sub32_eq r.b r.a hr.1 hr.2
    have hel : ((castU32 (f64mul x (sub32 r.b r.a)) : ℕ) : ℚ) ≤
        x * ((r.b - r.a : ℕ) : ℚ) * (1 + 2 ^ (-53 : ℤ)) := by
      rw [hsub]
      exact le_trans (castU32_le _ (f64mul_nonneg _ _)) (f64mul_le x _ hx hxlow)
    have hih := ih hrest
    simp only [List.map_cons, List.sum_cons, Nat.cast_add]
    nlinarith [hel, hih]

lemma sum_castU32_lb (x : ℚ) (hx : 0 ≤ x)
    (hxlow : x = 0 ∨ (2 : ℚ) ^ (-128 : ℤ) ≤ x) :
    ∀ (C : List SizeRules), (∀ r ∈ C, r.a ≤ r.b ∧ r.b < U32) →
    (∀ r ∈ C, f64mul x (sub32 r.b r.a) < (U32 : ℚ)) →
    x * (1 - 2 ^ (-53 : ℤ)) * (((C.map fun r => r.b - r.a).sum : ℕ) : ℚ) -
        (C.length : ℚ) ≤
      (((C.map fun r => castU32 (f64mul x (sub32 r.b r.a))).sum : ℕ) : ℚ) := by
  intro C
  induction C with
  | nil =>
    intro _ _
    simp
  | cons r rest ih =>
    intro hvalid hU
    have hr := hvalid r (List.mem_cons_self r rest)
    have hrU := hU r (List.mem_cons_self r rest)
    have hrest := fun s hs => hvalid s (List.mem_cons_of_mem r hs)
    have hrestU := fun s hs => hU s (List.mem_cons_of_mem r hs)
    have hsub : sub32 r.b r.a = r.b - r.a := sub32_eq r.b r.a hr.1 hr.2
    have hel : x * ((r.b - r.a : ℕ) : ℚ) * (1 - 2 ^ (-53 : ℤ)) - 1 ≤
        ((castU32 (f64mul x (sub32 r.b r.a)) : ℕ) : ℚ) := by
      have h1 := f64mul_ge x (r.b - r.a) hx hxlow
      have h2 := castU32_gt (f64mul x (r.b - r.a)) (by rw [← hsub]; exact hrU)
      rw [hsub]
      linarith
    have hih := ih hrest hrestU
    simp only [List.map_cons, List.sum_cons, Nat.cast_add, List.length_cons,
      Nat.cast_succ]
    nlinarith [hel, hih]

lemma sum_map_const (C : List SizeRules) (c : ℕ) :
    (C.map fun _ => c).sum = C.length * c := by
  induction C with
  | nil => simp
  | cons r rest ih =>
    simp only [List.map_cons, List.sum_cons, List.length_cons, ih]
    ring

set_option maxHeartbeats 1600000 in
lemma surplusPre_core (C : List SizeRules) (N t : ℕ)
    (hvalid : ∀ r ∈ C, r.a ≤ r.b ∧ r.b < U32)
    (hlen : C.length = N) (hN1 : 1 ≤ N)
    (hsmall : (C.map SizeRules.a).sum + t < U32)
    (htU : t < U32) (hPU : (C.map fun r => r.b - r.a).sum < U32) :
    (surplusPre C N t ((C.map fun r => r.b - r.a).sum)).sum ≤
      (C.map SizeRules.a).sum + t ∧
    (C.map SizeRules.a).sum + t ≤
      (surplusPre C N t ((C.map fun r => r.b - r.a).sum)).sum + N ∧
    (∀ n, n < N → (C.getD n SizeRules.EMPTY).a ≤
      (surplusPre C N t ((C.map fun r => r.b - r.a).sum)).getD n 0) ∧
    (surplusPre C N t ((C.map fun r => r.b - r.a).sum)).length = N := by
  by_cases hP : 0 < (C.map fun r => r.b - r.a).sum
  case neg =>
    -- pref_rel = 0: even integer split
    rw [surplusPre, if_neg hP]
    have hcongr : C.map (fun r => add32 r.a (t / N)) =
        C.map (fun r => r.a + t / N) := by
      apply List.map_congr_left
      intro r hr
      apply add32_eq
      have h1 : r.a ≤ (C.map SizeRules.a).sum :=
        elem_le_sum (List.mem_map_of_mem SizeRules.a hr)
      have h2 : t / N ≤ t := Nat.div_le_self t N
      omega
    rw [hcongr]
    have hsum : (C.map fun r => r.a + t / N).sum =
        (C.map SizeRules.a).sum + N * (t / N) := by
      rw [sum_map_add C SizeRules.a (fun _ => t / N), sum_map_const, hlen]
    have hdm := Nat.div_add_mod t N
    have hmod : t % N < N := Nat.mod_lt t (by omega)
    set w : ℕ := N * (t / N) with hw
    set e : ℕ := t % N with he
    refine ⟨?_, ?_, ?_, ?_⟩
    · rw [hsum]; omega
    · rw [hsum]; omega
    · intro n hn
      rw [getD_map C _ n (by omega)]
      exact Nat.le_add_right _ _
    · rw [List.length_map]; omega
  case pos =>
    -- pref_rel > 0: proportional f64 split
    rw [surplusPre, if_pos hP]
    have heps : ((2 : ℚ) ^ (-53 : ℤ)) = 1 / 9007199254740992 := by norm_num
    have h128 : ((2 : ℚ) ^ (-128 : ℤ)) =
        1 / 340282366920938463463374607431768211456 := by norm_num
    set P : ℕ := (C.map fun r => r.b - r.a).sum with hPdef
    set x : ℚ := f64div t P with hxdef
    clear_value x
    have hPq1 : (1 : ℚ) ≤ (P : ℚ) := by exact_mod_cast hP
    have hPqU : (P : ℚ) ≤ 4294967295 := by
      have : P ≤ 4294967295 := by
        have := hPU
        rw [U32] at this
        omega
      exact_mod_cast this
    have htq : (t : ℚ) ≤ 4294967295 := by
      have : t ≤ 4294967295 := by
        have := htU
        rw [U32] at this
        omega
      exact_mod_cast this
    have hq0 : (0 : ℚ) ≤ (t : ℚ) / (P : ℚ) := by positivity
    have hqP : (t : ℚ) / (P : ℚ) * (P : ℚ) = (t : ℚ) :=
      div_mul_cancel₀ _ (by linarith)
    have hqlow : (t : ℚ) / (P : ℚ) = 0 ∨
        (2 : ℚ) ^ (-128 : ℤ) ≤ (t : ℚ) / (P : ℚ) := by
      rcases Nat.eq_zero_or_pos t with rfl | ht1
      · left
        simp
      · right
        rw [h128, div_le_div_iff (by norm_num) (by linarith)]
        have ht1q : (1 : ℚ) ≤ (t : ℚ) := by exact_mod_cast ht1
        nlinarith
    have hx0 : 0 ≤ x := by
      rw [hxdef, f64div]
      exact rnd53_nonneg _
    have hxub : x ≤ (t : ℚ) / (P : ℚ) * (1 + 2 ^ (-53 : ℤ)) := by
      rw [hxdef, f64div]
      exact rnd53_le _ hqlow
    have hxlb : (t : ℚ) / (P : ℚ) * (1 - 2 ^ (-53 : ℤ)) ≤ x := by
      rw [hxdef, f64div]
      exact rnd53_ge _ hqlow
    have hxlow : x = 0 ∨ (2 : ℚ) ^ (-128 : ℤ) ≤ x := by
      rcases Nat.eq_zero_or_pos t with rfl | ht1
      · left
        rw [hxdef, f64div]
        simp [rnd53_nonpos 0 le_rfl]
      · right
        have ht1q : (1 : ℚ) ≤ (t : ℚ) := by exact_mod_cast ht1
        have hqlb : 1 / 4294967296 ≤ (t : ℚ) / (P : ℚ) := by
          rw [div_le_div_iff (by norm_num) (by linarith)]
          nlinarith
        rw [h128]
        rw [heps] at hxlb
        nlinarith
    -- upper bound on each f64 product, for castU32_gt
    have hUfor : ∀ r ∈ C, f64mul x (sub32 r.b r.a) < (U32 : ℚ) := by
      intro r hr
      have hrv := hvalid r hr
      have hsub : sub32 r.b r.a = r.b - r.a := sub32_eq r.b r.a hrv.1 hrv.2
      have hdP : (r.b - r.a : ℕ) ≤ P := by
        apply elem_le_sum
        exact List.mem_map_of_mem (fun r => r.b - r.a) hr
      have hdPq : ((r.b - r.a : ℕ) : ℚ) ≤ (P : ℚ) := by exact_mod_cast hdP
      have hd0 : (0 : ℚ) ≤ ((r.b - r.a : ℕ) : ℚ) := by positivity
      have h1 := f64mul_le x (r.b - r.a) hx0 hxlow
      have h2 : x * ((r.b - r.a : ℕ) : ℚ) ≤ (t : ℚ) * (1 + 2 ^ (-53 : ℤ)) := by
        have h3 : x * ((r.b - r.a : ℕ) : ℚ) ≤
            ((t : ℚ) / (P : ℚ) * (1 + 2 ^ (-53 : ℤ))) * (P : ℚ) := by
          calc x * ((r.b - r.a : ℕ) : ℚ) ≤ x * (P : ℚ) :=
                mul_le_mul_of_nonneg_left hdPq hx0
            _ ≤ ((t : ℚ) / (P : ℚ) * (1 + 2 ^ (-53 : ℤ))) * (P : ℚ) :=
                mul_le_mul_of_nonneg_right hxub (by linarith)
        calc x * ((r.b - r.a : ℕ) : ℚ) ≤
            ((t : ℚ) / (P : ℚ) * (1 + 2 ^ (-53 : ℤ))) * (P : ℚ) := h3
          _ = (t : ℚ) * (1 + 2 ^ (-53 : ℤ)) := by
              field_simp
              ring
      have hU32q : (U32 : ℚ) = 4294967296 := by norm_num [U32]
      rw [hsub, hU32q]
      rw [heps] at h1 h2
      nlinarith
    -- the natural-number sum of the floored sizes
    set SumS : ℕ := (C.map fun r => castU32 (f64mul x (sub32 r.b r.a))).sum with hSdef
    clear_value SumS
    have hub := sum_castU32_ub x hx0 hxlow C hvalid
    have hlb := sum_castU32_lb x hx0 hxlow C hvalid hUfor
    rw [← hPdef, ← hSdef] at hub hlb
    have hSle : SumS ≤ t := by
      have h1 : (SumS : ℚ) ≤ (t : ℚ) * (1 + 2 ^ (-53 : ℤ)) * (1 + 2 ^ (-53 : ℤ)) := by
        have h2 : x * (1 + 2 ^ (-53 : ℤ)) * (P : ℚ) ≤
            ((t : ℚ) / (P : ℚ) * (1 + 2 ^ (-53 : ℤ))) * (1 + 2 ^ (-53 : ℤ)) * (P : ℚ) := by
          have := mul_le_mul_of_nonneg_right hxub
            (by rw [heps]; norm_num : (0 : ℚ) ≤ 1 + 2 ^ (-53 : ℤ))
          exact mul_le_mul_of_nonneg_right this (by linarith)
        have h3 : ((t : ℚ) / (P : ℚ) * (1 + 2 ^ (-53 : ℤ))) * (1 + 2 ^ (-53 : ℤ)) *
            (P : ℚ) = (t : ℚ) * (1 + 2 ^ (-53 : ℤ)) * (1 + 2 ^ (-53 : ℤ)) := by
          field_simp
          ring
        calc (SumS : ℚ) ≤ x * (1 + 2 ^ (-53 : ℤ)) * (P : ℚ) := hub
          _ ≤ _ := h2
          _ = _ := h3
      have h4 : (SumS : ℚ) < (t : ℚ) + 1 := by
        rw [heps] at h1
        nlinarith
      have h5 : SumS < t + 1 := by exact_mod_cast h4
      omega
    have hSge : t ≤ SumS + N := by
      have h1 : (t : ℚ) * (1 - 2 ^ (-53 : ℤ)) * (1 - 2 ^ (-53 : ℤ)) - (N : ℚ) ≤
          (SumS : ℚ) := by
        have h2 : ((t : ℚ) / (P : ℚ) * (1 - 2 ^ (-53 : ℤ))) * (1 - 2 ^ (-53 : ℤ)) *
            (P : ℚ) ≤ x * (1 - 2 ^ (-53 : ℤ)) * (P : ℚ) := by
          have := mul_le_mul_of_nonneg_right hxlb
            (by rw [heps]; norm_num : (0 : ℚ) ≤ 1 - 2 ^ (-53 : ℤ))
          exact mul_le_mul_of_nonneg_right this (by linarith)
        have h3 : ((t : ℚ) / (P : ℚ) * (1 - 2 ^ (-53 : ℤ))) * (1 - 2 ^ (-53 : ℤ)) *
            (P : ℚ) = (t : ℚ) * (1 - 2 ^ (-53 : ℤ)) * (1 - 2 ^ (-53 : ℤ)) := by
          field_simp
          ring
        have hlNq : (C.length : ℚ) = (N : ℚ) := by exact_mod_cast hlen
        calc (t : ℚ) * (1 - 2 ^ (-53 : ℤ)) * (1 - 2 ^ (-53 : ℤ)) - (N : ℚ)
            = ((t : ℚ) / (P : ℚ) * (1 - 2 ^ (-53 : ℤ))) * (1 - 2 ^ (-53 : ℤ)) *
              (P : ℚ) - (N : ℚ) := by rw [h3]
          _ ≤ x * (1 - 2 ^ (-53 : ℤ)) * (P : ℚ) - (N : ℚ) := by linarith
          _ ≤ (SumS : ℚ) := by rw [← hlNq]; exact hlb
      have h4 : (t : ℚ) < (SumS : ℚ) + (N : ℚ) + 1 := by
        rw [heps] at h1
        nlinarith
      have h5 : t < SumS + N + 1 := by exact_mod_cast h4
      omega
    -- clean the u32 additions and conclude
    have hcongr : C.map (fun r => add32 r.a (castU32 (f64mul x (sub32 r.b r.a)))) =
        C.map (fun r => r.a + castU32 (f64mul x (sub32 r.b r.a))) := by
      apply List.map_congr_left
      intro r hr
      apply add32_eq
      have h1 : r.a ≤ (C.map SizeRules.a).sum :=
        elem_le_sum (List.mem_map_of_mem SizeRules.a hr)
      have h2 : castU32 (f64mul x (sub32 r.b r.a)) ≤ SumS := by
        rw [hSdef]
        exact elem_le_sum
          (List.mem_map_of_mem (fun r => castU32 (f64mul x (sub32 r.b r.a))) hr)
      revert h2
      generalize castU32 (f64mul x (sub32 r.b r.a)) = s
      intro h2
      omega
    rw [hcongr]
    have hsum : (C.map fun r => r.a + castU32 (f64mul x (sub32 r.b r.a))).sum =
        (C.map SizeRules.a).sum + SumS := by
      rw [sum_map_add C SizeRules.a (fun r => castU32 (f64mul x (sub32 r.b r.a))),
        ← hSdef]
    refine ⟨?_, ?_, ?_, ?_⟩
    · rw [hsum]; omega
    · rw [hsum]; omega
    · intro n hn
      rw [getD_map C _ n (by omega)]
      exact Nat.le_add_right _ _
    · rw [List.length_map]; omega

lemma getD_mem (l : List ℕ) : ∀ n, n < l.length → l.getD n 0 ∈ l := by
  induction l with
  | nil =>
    intro n h
    simp at h
  | cons a rest ih =>
    intro n h
    cases n with
    | zero => simp
    | succ n' =>
      simp only [List.getD_cons_succ]
      exact List.mem_cons_of_mem _ (ih n' (by simpa using h))

/-- C2: in the surplus case (`target >= rules[N].min`), with valid children
(`min ≤ pref`, `u32`-ranged) and `rules[N]` the component-wise sum of the
children, `solve_seq` succeeds (no assertion fires, despite the `f64`
rounding), the output sums exactly to `target`, and every child receives at
least its own minimum. -/
theorem c2_surplus_sum_and_min (out : List ℕ) (rules : List SizeRules)
    (target : ℕ)
    (hlen : rules.length = out.length + 1) (hN : out.length ≠ 0)
    (hvalid : ∀ r ∈ rules.take out.length, r.a ≤ r.b ∧ r.b < U32)
    (haggA : (rules.getD out.length SizeRules.EMPTY).a =
      ((rules.take out.length).map SizeRules.a).sum)
    (haggB : (rules.getD out.length SizeRules.EMPTY).b =
      ((rules.take out.length).map SizeRules.b).sum)
    (haggU : (rules.getD out.length SizeRules.EMPTY).b < U32)
    (htU : target < U32)
    (hsur : (rules.getD out.length SizeRules.EMPTY).a ≤ target) :
    ∃ res, solveSeq out rules target = some res ∧
      res.sum = target ∧
      ∀ n, n < out.length → (rules.getD n SizeRules.EMPTY).a ≤ res.getD n 0 := by
  have hClen : (rules.take out.length).length = out.length := by
    rw [List.length_take]
    omega
  have hab : ∀ r ∈ rules.take out.length, r.a ≤ r.b := fun r hr => (hvalid r hr).1
  have hAB : (rules.getD out.length SizeRules.EMPTY).a ≤
      (rules.getD out.length SizeRules.EMPTY).b := by
    rw [haggA, haggB]
    exact List.sum_le_sum hab
  have hdsum : ((rules.take out.length).map fun r => r.b - r.a).sum =
      (rules.getD out.length SizeRules.EMPTY).b -
        (rules.getD out.length SizeRules.EMPTY).a := by
    rw [sum_map_sub _ hab, ← haggA, ← haggB]
  have heq : sub32 (rules.getD out.length SizeRules.EMPTY).b
      (rules.getD out.length SizeRules.EMPTY).a =
      ((rules.take out.length).map fun r => r.b - r.a).sum := by
    rw [sub32_eq _ _ hAB haggU, hdsum]
  have hsmall : ((rules.take out.length).map SizeRules.a).sum +
      (target - (rules.getD out.length SizeRules.EMPTY).a) < U32 := by
    rw [← haggA]
    omega
  have hPU : ((rules.take out.length).map fun r => r.b - r.a).sum < U32 := by
    rw [hdsum]
    omega
  obtain ⟨hc1, hc2, hc3, hc4⟩ := surplusPre_core (rules.take out.length) out.length
    (target - (rules.getD out.length SizeRules.EMPTY).a) hvalid hClen (by omega)
    hsmall (by omega) hPU
  set pre : List ℕ := surplusPre (rules.take out.length) out.length
    (target - (rules.getD out.length SizeRules.EMPTY).a)
    (((rules.take out.length).map fun r => r.b - r.a).sum) with hpre
  clear_value pre
  rw [← haggA] at hc1 hc2
  have htsum : (rules.getD out.length SizeRules.EMPTY).a +
      (target - (rules.getD out.length SizeRules.EMPTY).a) = target := by omega
  rw [htsum] at hc1 hc2
  rw [solveSeq_surplus_eq out rules target hlen hN hsur, surplusCase, heq, ← hpre]
  have hs32 : sum32 pre = pre.sum := sum32_eq_sum pre (by omega)
  rw [hs32, if_pos hc1, if_pos (by omega : target - pre.sum ≤ out.length)]
  refine ⟨_, rfl, ?_, ?_⟩
  · rcases Nat.eq_zero_or_pos (target - pre.sum) with hz | hpos
    · rw [hz]
      have : addOneFirst 0 pre = pre := rfl
      rw [this]
      omega
    · have hbound : ∀ a ∈ pre, a + 1 < U32 := by
        intro a ha
        have h1 : a ≤ pre.sum := elem_le_sum ha
        omega
      rw [addOneFirst_sum pre _ (by omega) hbound]
      omega
  · intro n hn
    have h1 : ((rules.take out.length).getD n SizeRules.EMPTY).a ≤ pre.getD n 0 :=
      hc3 n hn
    rw [getD_take rules out.length n hn] at h1
    have h2 : n < pre.length := by omega
    rw [addOneFirst_getD pre _ n h2]
    split
    · rename_i hlt
      have hmem : pre.getD n 0 ∈ pre := getD_mem pre n h2
      have h3 : pre.getD n 0 ≤ pre.sum := elem_le_sum hmem
      rw [add32_eq _ 1 (by omega)]
      omega
    · exact h1

/-- C2 witness: the theorem applied to the concrete surplus call of the
end-to-end scenario (children `{10,20}`, `{10,30}`, aggregate `{20,50}`,
target `40`). -/
theorem c2_witness :
    ∃ res, solveSeq [0, 0] [⟨10, 20⟩, ⟨10, 30⟩, ⟨20, 50⟩] 40 = some res ∧
      res.sum = 40 ∧
      ∀ n, n < 2 →
        (([⟨10, 20⟩, ⟨10, 30⟩, ⟨20, 50⟩] : List SizeRules).getD n
          SizeRules.EMPTY).a ≤ res.getD n 0 :=
  c2_surplus_sum_and_min [0, 0] [⟨10, 20⟩, ⟨10, 30⟩, ⟨20, 50⟩] 40
    (by decide) (by decide) (by decide) (by decide) (by decide) (by decide)
    (by decide) (by decide)

/-! ## C4: deficit case stays below the minimums and shrinks fairly -/

lemma maxOf_cons (a : ℕ) (l : List ℕ) : maxOf (a :: l) = Max.max a (maxOf l) := rfl

lemma le_maxOf_of_mem {l : List ℕ} {a : ℕ} (h : a ∈ l) : a ≤ maxOf l := by
  induction l with
  | nil => simp at h
  | cons b rest ih =>
    rcases List.mem_cons.mp h with rfl | h2
    · rw [maxOf_cons]
      exact le_max_left _ _
    · rw [maxOf_cons]
      exact le_trans (ih h2) (le_max_right _ _)

lemma maxOf_le {l : List ℕ} {c : ℕ} (h : ∀ a ∈ l, a ≤ c) : maxOf l ≤ c := by
  induction l with
  | nil => exact Nat.zero_le c
  | cons b rest ih =>
    rw [maxOf_cons]
    exact max_le (h b (List.mem_cons_self b rest))
      (ih (fun a ha => h a (List.mem_cons_of_mem _ ha)))

lemma maxOf_eq {l : List ℕ} {c : ℕ} (h1 : ∀ a ∈ l, a ≤ c) (h2 : c ∈ l) :
    maxOf l = c :=
  le_antisymm (maxOf_le h1) (le_maxOf_of_mem h2)

lemma maxOf_pos_of_sum_pos {l : List ℕ} (h : 0 < l.sum) : 1 ≤ maxOf l := by
  induction l with
  | nil => simp at h
  | cons b rest ih =>
    rw [maxOf_cons]
    rcases Nat.eq_zero_or_pos b with rfl | hb
    · simp only [List.sum_cons, Nat.zero_add] at h
      exact le_trans (ih h) (le_max_right _ _)
    · exact le_trans hb (le_max_left _ _)

lemma maxBelow_lt {l : List ℕ} {v : ℕ} (hv : 0 < v) : maxBelow l v < v := by
  rw [maxBelow]
  rcases Nat.lt_or_ge (maxOf (l.filter (fun a => a < v))) v with h | h
  · exact h
  · exfalso
    have h2 : maxOf (l.filter (fun a => a < v)) ≤ v - 1 := by
      apply maxOf_le
      intro a ha
      have := List.of_mem_filter ha
      simp at this
      omega
    omega

lemma mem_of_count_pos {l : List ℕ} {v : ℕ} (h : 0 < l.count v) : v ∈ l :=
  List.count_pos_iff_mem.mp h

lemma count_pos_of_mem {l : List ℕ} {v : ℕ} (h : v ∈ l) : 0 < l.count v :=
  List.count_pos_iff_mem.mpr h

lemma shrinkPass_spec (L th st : ℕ) (hth : th < L) : ∀ (l : List ℕ) (na nl : ℕ),
    shrinkPass L th st l na nl =
      (l.map (fun a => if a = L then a - st else a),
       na + l.count th,
       Max.max nl (maxOf (l.filter (fun a => a ≠ L ∧ a ≠ th)))) := by
  intro l
  induction l with
  | nil =>
    intro na nl
    simp [shrinkPass, maxOf]
  | cons a rest ih =>
    intro na nl
    have hthL : th ≠ L := by omega
    rw [shrinkPass]
    by_cases haL : a = L
    · rw [if_pos haL, ih na nl]
      have h1 : a ≠ th := by omega
      simp [List.count_cons, List.filter_cons, haL, h1, hthL, Ne.symm hthL]
    · rw [if_neg haL]
      by_cases hath : a = th
      · rw [if_pos hath, ih (na + 1) nl]
        simp [List.count_cons, List.filter_cons, haL, hath, hthL]
        omega
      · by_cases hnl : nl < a
        · rw [if_pos hnl, ih na a]
          simp [List.count_cons, List.filter_cons, haL, hath, hthL, maxOf_cons]
          omega
        · rw [if_neg hnl, ih na nl]
          simp [List.count_cons, List.filter_cons, haL, hath, hthL, maxOf_cons]
          omega

lemma getD_map_nat (l : List ℕ) (f : ℕ → ℕ) :
    ∀ n, n < l.length → (l.map f).getD n 0 = f (l.getD n 0) := by
  induction l with
  | nil =>
    intro n h
    simp at h
  | cons a rest ih =>
    intro n h
    cases n with
    | zero => simp
    | succ n' => simpa using ih n' (by simpa using h)

lemma getD_default (l : List ℕ) : ∀ n, l.length ≤ n → l.getD n 0 = 0 := by
  induction l with
  | nil =>
    intro n _
    simp
  | cons a rest ih =>
    intro n h
    cases n with
    | zero => simp at h
    | succ n' => simpa using ih n' (by simpa using h)

lemma decrLargest_length (L : ℕ) : ∀ (l : List ℕ) (e : ℕ),
    (decrLargest L l e).length = l.length := by
  intro l
  induction l with
  | nil =>
    intro e
    rfl
  | cons a rest ih =>
    intro e
    rw [decrLargest]
    split
    · split <;> simp [ih]
    · simp [ih]

lemma decrLargest_getD_le (L : ℕ) (hL : 1 ≤ L) : ∀ (l : List ℕ) (e : ℕ),
    (∀ a ∈ l, a < U32) → ∀ n, (decrLargest L l e).getD n 0 ≤ l.getD n 0 := by
  intro l
  induction l with
  | nil =>
    intro e _ n
    simp [decrLargest]
  | cons a rest ih =>
    intro e hb n
    have haU : a < U32 := hb a (List.mem_cons_self a rest)
    have hrest : ∀ x ∈ rest, x < U32 := fun x hx => hb x (List.mem_cons_of_mem _ hx)
    rw [decrLargest]
    by_cases haL : a = L
    · rw [if_pos haL]
      have hsub : sub32 a 1 = a - 1 := sub32_eq a 1 (by omega) haU
      by_cases he : e = 0
      · rw [if_pos he]
        cases n with
        | zero => simp [hsub]
        | succ n' => simp
      · rw [if_neg he]
        cases n with
        | zero => simp [hsub]
        | succ n' => simpa using ih (e - 1) hrest n'
    · rw [if_neg haL]
      cases n with
      | zero => simp
      | succ n' => simpa using ih e hrest n'

lemma decrLargest_replicate (m : ℕ) (hm : 1 ≤ m) (hmU : m < U32) :
    ∀ (N e : ℕ), decrLargest m (List.replicate N m) e =
      List.replicate (Min.min (e + 1) N) (m - 1) ++
        List.replicate (N - Min.min (e + 1) N) m := by
  intro N
  induction N with
  | zero =>
    intro e
    simp [decrLargest]
  | succ N' ih =>
    intro e
    have hsub : sub32 m 1 = m - 1 := sub32_eq m 1 hm hmU
    rw [List.replicate_succ, decrLargest, if_pos rfl]
    by_cases he : e = 0
    · rw [if_pos he, hsub]
      have h1 : Min.min (e + 1) (N' + 1) = 1 := by omega
      rw [h1]
      simp [List.replicate_succ]
    · rw [if_neg he, hsub, ih (e - 1)]
      have h1 : Min.min (e + 1) (N' + 1) = Min.min (e - 1 + 1) N' + 1 := by omega
      rw [h1]
      have h2 : N' + 1 - (Min.min (e - 1 + 1) N' + 1) = N' - Min.min (e - 1 + 1) N' := by
        omega
      rw [h2]
      simp [List.replicate_succ]

lemma getD_replicate (x : ℕ) : ∀ (N i : ℕ), i < N →
    (List.replicate N x).getD i 0 = x := by
  intro N
  induction N with
  | zero =>
    intro i h
    omega
  | succ N' ih =>
    intro i h
    cases i with
    | zero => simp [List.replicate_succ]
    | succ i' =>
      rw [List.replicate_succ]
      simpa using ih i' (by omega)

lemma getD_rep_append (x y : ℕ) : ∀ (k n i : ℕ), i < k + n →
    (List.replicate k x ++ List.replicate n y).getD i 0 =
      if i < k then x else y := by
  intro k
  induction k with
  | zero =>
    intro n i h
    simp only [List.replicate, List.nil_append]
    rw [if_neg (by omega)]
    exact getD_replicate y n i (by omega)
  | succ k' ih =>
    intro n i h
    rw [List.replicate_succ, List.cons_append]
    cases i with
    | zero => simp
    | succ i' =>
      have := ih n i' (by omega)
      simp only [List.getD_cons_succ]
      rw [this]
      by_cases hik : i' < k'
      · rw [if_pos hik, if_pos (by omega)]
      · rw [if_neg hik, if_neg (by omega)]

lemma foldr_max_init (s : List ℕ) : ∀ a : ℕ, s.foldr Max.max a = Max.max a (maxOf s) := by
  induction s with
  | nil =>
    intro a
    simp [maxOf]
  | cons b rest ih =>
    intro a
    rw [List.foldr_cons, ih, maxOf_cons]
    omega

lemma maxOf_append_singleton (s : List ℕ) (a : ℕ) :
    maxOf (s ++ [a]) = Max.max a (maxOf s) := by
  rw [maxOf, List.foldr_append]
  have h1 : List.foldr Max.max 0 [a] = a := by simp
  rw [h1, foldr_max_init]

lemma scanUpd_stateOf (s : List ℕ) (a : ℕ) :
    scanUpd (stateOf s) a = stateOf (s ++ [a]) := by
  have hmax : maxOf (s ++ [a]) = Max.max a (maxOf s) := maxOf_append_singleton s a
  have hcnt : ∀ v, (s ++ [a]).count v = s.count v + if a = v then 1 else 0 := by
    intro v
    rw [List.count_append]
    simp [List.count_cons]
  have hfil : ∀ v, (s ++ [a]).filter (fun b => b < v) =
      s.filter (fun b => b < v) ++ if a < v then [a] else [] := by
    intro v
    rw [List.filter_append]
    by_cases hav : a < v
    · simp [hav]
    · simp [hav]
  rcases Nat.lt_trichotomy a (maxOf s) with hlt | heq | hgt
  · -- a below the maximum: max and count unchanged, maxBelow may grow
    have h1 : Max.max a (maxOf s) = maxOf s := by omega
    have h2 : (s ++ [a]).count (maxOf s) = s.count (maxOf s) := by
      rw [hcnt]
      simp [Nat.ne_of_lt hlt]
    have h3 : maxBelow (s ++ [a]) (maxOf s) =
        Max.max a (maxBelow s (maxOf s)) := by
      rw [maxBelow, hfil, if_pos hlt, maxOf_append_singleton, maxBelow]
    rw [stateOf, scanUpd, stateOf, hmax, h1, h2, h3]
    simp only []
    rw [if_neg (by omega : ¬ a = maxOf s), if_neg (by omega : ¬ maxOf s < a)]
    by_cases h4 : maxBelow s (maxOf s) < a
    · rw [if_pos h4]
      refine congrArg _ (congrArg _ ?_)
      omega
    · rw [if_neg h4]
      refine congrArg _ (congrArg _ ?_)
      omega
  · -- a equals the maximum: count increases
    have h1 : Max.max a (maxOf s) = maxOf s := by omega
    have h2 : (s ++ [a]).count (maxOf s) = s.count (maxOf s) + 1 := by
      rw [hcnt]
      simp [heq]
    have h3 : maxBelow (s ++ [a]) (maxOf s) = maxBelow s (maxOf s) := by
      rw [maxBelow, hfil, if_neg (by omega : ¬ a < maxOf s)]
      simp [maxBelow]
    rw [stateOf, scanUpd, stateOf, hmax, h1, h2, h3]
    simp only []
    rw [if_pos heq]
  · -- a above the maximum: new maximum with multiplicity one
    have h1 : Max.max a (maxOf s) = a := by omega
    have h2 : (s ++ [a]).count a = 1 := by
      rw [hcnt]
      have hnot : s.count a = 0 := by
        rcases Nat.eq_zero_or_pos (s.count a) with h | h
        · exact h
        · exact absurd (le_maxOf_of_mem (mem_of_count_pos h)) (by omega)
      simp [hnot]
    have h3 : maxBelow (s ++ [a]) a = maxOf s := by
      rw [maxBelow, hfil, if_neg (by omega : ¬ a < a)]
      have hall : s.filter (fun b => b < a) = s := by
        rw [List.filter_eq_self]
        intro b hb
        have := le_maxOf_of_mem hb
        simp
        omega
      simp [hall]
    rw [stateOf, scanUpd, stateOf, hmax, h1, h2, h3]
    simp only []
    rw [if_neg (by omega : ¬ a = maxOf s), if_pos hgt]

lemma scanFold_stateOf : ∀ (l s : List ℕ),
    List.foldl scanUpd (stateOf s) l = stateOf (s ++ l) := by
  intro l
  induction l with
  | nil =>
    intro s
    simp
  | cons a rest ih =>
    intro s
    rw [List.foldl_cons, scanUpd_stateOf, ih]
    simp

lemma initScanGo_spec : ∀ (cs : List SizeRules) (L C0 NL : ℕ),
    initScanGo cs L C0 NL =
      ((cs.map SizeRules.a), (cs.map SizeRules.a).foldl scanUpd (L, C0, NL)) := by
  intro cs
  induction cs with
  | nil =>
    intro L C0 NL
    rfl
  | cons r rest ih =>
    intro L C0 NL
    simp only [initScanGo, List.map_cons, List.foldl_cons, scanUpd]
    by_cases h1 : r.a = L
    · rw [if_pos h1, if_pos h1, ih]
    · rw [if_neg h1, if_neg h1]
      by_cases h2 : L < r.a
      · rw [if_pos h2, if_pos h2, ih]
      · rw [if_neg h2, if_neg h2]
        by_cases h3 : NL < r.a
        · rw [if_pos h3, if_pos h3, ih]
        · rw [if_neg h3, if_neg h3, ih]

lemma initScan_spec (cs : List SizeRules) :
    initScan cs = ((cs.map SizeRules.a), stateOf (cs.map SizeRules.a)) := by
  rw [initScan, initScanGo_spec]
  have h0 : ((0, 0, 0) : ℕ × ℕ × ℕ) = stateOf [] := rfl
  rw [h0, scanFold_stateOf]
  simp

lemma le_maxBelow_of {l : List ℕ} {a v : ℕ} (h1 : a ∈ l) (h2 : a < v) :
    a ≤ maxBelow l v :=
  le_maxOf_of_mem (List.mem_filter.mpr ⟨h1, by simp [h2]⟩)

lemma count_mul_le_sum (L st : ℕ) (hst : st ≤ L) :
    ∀ l : List ℕ, st * l.count L ≤ l.sum := by
  intro l
  induction l with
  | nil => simp
  | cons a rest ih =>
    by_cases haL : a = L
    · have hc : (a :: rest).count L = rest.count L + 1 := by
        rw [haL, List.count_cons_self]
      have hms : st * (rest.count L + 1) = st * rest.count L + st := by ring
      rw [List.sum_cons, hc, hms]
      omega
    · have hc : (a :: rest).count L = rest.count L := List.count_cons_of_ne (Ne.symm haL) rest
      rw [List.sum_cons, hc]
      omega

lemma sum_map_shrink (L st : ℕ) (hst : st ≤ L) :
    ∀ l : List ℕ, (l.map (fun a => if a = L then a - st else a)).sum =
      l.sum - st * l.count L := by
  intro l
  induction l with
  | nil => simp
  | cons a rest ih =>
    have hrest := count_mul_le_sum L st hst rest
    by_cases haL : a = L
    · have hc : (a :: rest).count L = rest.count L + 1 := by
        rw [haL, List.count_cons_self]
      have hms : st * (rest.count L + 1) = st * rest.count L + st := by ring
      rw [List.map_cons, List.sum_cons, List.sum_cons, ih, if_pos haL, hc, hms]
      omega
    · have hc : (a :: rest).count L = rest.count L := List.count_cons_of_ne (Ne.symm haL) rest
      rw [List.map_cons, List.sum_cons, List.sum_cons, ih, if_neg haL, hc]
      omega

lemma count_map_shrink_eq (L st nl : ℕ) (hnl : nl < L) (hmap : L - st = nl) :
    ∀ l : List ℕ, (l.map (fun a => if a = L then a - st else a)).count nl =
      l.count L + l.count nl := by
  intro l
  induction l with
  | nil => simp
  | cons a rest ih =>
    rw [List.map_cons, List.count_cons, List.count_cons, List.count_cons, ih]
    by_cases haL : a = L
    · rw [if_pos haL]
      have h1 : (a - st == nl) = true := by rw [haL]; simp [hmap]
      have h2 : (a == L) = true := by simp [haL]
      have h3 : (a == nl) = false := by rw [haL]; simp; omega
      rw [h1, h2, h3, if_pos rfl, if_neg (by decide : ¬ false = true)]
      omega
    · rw [if_neg haL]
      have h2 : (a == L) = false := by simp [haL]
      rw [h2, if_neg (by decide : ¬ false = true)]
      omega

lemma count_map_shrink_gt (L st nl : ℕ) (hgt : nl < L - st) :
    ∀ l : List ℕ, (∀ a ∈ l, a = L ∨ a ≤ nl) →
      (l.map (fun a => if a = L then a - st else a)).count (L - st) = l.count L := by
  intro l
  induction l with
  | nil =>
    intro _
    simp
  | cons a rest ih =>
    intro hbelow
    have ha := hbelow a (List.mem_cons_self a rest)
    have hrest := fun x hx => hbelow x (List.mem_cons_of_mem a hx)
    rw [List.map_cons, List.count_cons, List.count_cons, ih hrest]
    by_cases haL : a = L
    · rw [if_pos haL]
      have h1 : (a - st == L - st) = true := by rw [haL]; simp
      have h2 : (a == L) = true := by simp [haL]
      rw [h1, h2]
    · rw [if_neg haL]
      have hle : a ≤ nl := ha.resolve_left haL
      have h1 : (a == L - st) = false := by simp; omega
      have h2 : (a == L) = false := by simp [haL]
      rw [h1, h2]

lemma filter_map_shrink (L st nl : ℕ) (hnl : nl < L) (hmap : L - st = nl) :
    ∀ l : List ℕ, (∀ a ∈ l, a = L ∨ a = nl ∨ a < nl) →
      ((l.map (fun a => if a = L then a - st else a)).filter (fun a => a < nl)) =
        l.filter (fun a => a ≠ L ∧ a ≠ nl) := by
  intro l
  induction l with
  | nil =>
    intro _
    simp
  | cons a rest ih =>
    intro hbelow
    have ha := hbelow a (List.mem_cons_self a rest)
    have hrest := fun x hx => hbelow x (List.mem_cons_of_mem a hx)
    rw [List.map_cons, List.filter_cons, List.filter_cons, ih hrest]
    by_cases haL : a = L
    · rw [if_pos haL]
      have h1 : (decide (a - st < nl)) = false := by rw [haL, hmap]; simp
      have h2 : (decide (a ≠ L ∧ a ≠ nl)) = false := by simp [haL]
      rw [h1, h2]
      simp
    · rw [if_neg haL]
      by_cases hanl : a = nl
      · have h1 : (decide (a < nl)) = false := by simp [hanl]
        have h2 : (decide (a ≠ L ∧ a ≠ nl)) = false := by simp [hanl]
        rw [h1, h2]
      · have hlt : a < nl := (ha.resolve_left haL).resolve_left hanl
        have h1 : (decide (a < nl)) = true := by simp [hlt]
        have h2 : (decide (a ≠ L ∧ a ≠ nl)) = true := by simp [haL, hanl]
        rw [h1, h2]

lemma shrinkInv_step (mins : List ℕ) (target : ℕ) (out : List ℕ)
    (excess L ne nl : ℕ)
    (hInv : ShrinkInv mins target out excess L ne nl)
    (hstep : Min.min (excess / ne) (L - nl) ≠ 0) :
    ShrinkInv mins target
      (shrinkPass L nl (Min.min (excess / ne) (L - nl)) out 0 0).1
      (excess - Min.min (excess / ne) (L - nl) * ne)
      (L - Min.min (excess / ne) (L - nl))
      (ne + (shrinkPass L nl (Min.min (excess / ne) (L - nl)) out 0 0).2.1)
      (shrinkPass L nl (Min.min (excess / ne) (L - nl)) out 0 0).2.2 ∧
    1 ≤ Min.min (excess / ne) (L - nl) * ne ∧
    Min.min (excess / ne) (L - nl) * ne ≤ excess := by
  obtain ⟨hlen, hpt, hbU, hLmax, hsum, hacc_cond, hcnt_le, hne1⟩ := hInv
  have hst1 : 1 ≤ Min.min (excess / ne) (L - nl) := Nat.pos_of_ne_zero hstep
  have hdiv1 : 1 ≤ excess / ne := le_trans hst1 (min_le_left _ _)
  have hne_le : ne ≤ excess := (Nat.one_le_div_iff (by omega)).mp hdiv1
  obtain ⟨hacc_ne, hacc_nl⟩ := hacc_cond hne_le
  have hstLnl : Min.min (excess / ne) (L - nl) ≤ L - nl := min_le_right _ _
  have hst_div : Min.min (excess / ne) (L - nl) ≤ excess / ne := min_le_left _ _
  have hnlL : nl < L := by omega
  have hmul_le : Min.min (excess / ne) (L - nl) * ne ≤ excess :=
    le_trans (Nat.mul_le_mul_right _ hst_div) (Nat.div_mul_le_self _ _)
  have hmul_ge : 1 ≤ Min.min (excess / ne) (L - nl) * ne :=
    Nat.one_le_iff_ne_zero.mpr (Nat.mul_ne_zero (by omega) (by omega))
  have hspec := shrinkPass_spec L nl (Min.min (excess / ne) (L - nl)) hnlL out 0 0
  have h1eq : (shrinkPass L nl (Min.min (excess / ne) (L - nl)) out 0 0).1 =
      out.map (fun a => if a = L then a - Min.min (excess / ne) (L - nl) else a) := by
    rw [hspec]
  have h2eq : (shrinkPass L nl (Min.min (excess / ne) (L - nl)) out 0 0).2.1 =
      out.count nl := by
    rw [hspec]
    simp
  have h3eq : (shrinkPass L nl (Min.min (excess / ne) (L - nl)) out 0 0).2.2 =
      maxOf (out.filter (fun a => a ≠ L ∧ a ≠ nl)) := by
    rw [hspec]
    simp
  have hbelow : ∀ a ∈ out, a = L ∨ a ≤ nl := by
    intro a ha
    by_cases haL : a = L
    · exact Or.inl haL
    · right
      have h1 : a ≤ L := by
        rw [hLmax]
        exact le_maxOf_of_mem ha
      have h2 : a < L := by omega
      have h3 : a ≤ maxBelow out L := le_maxBelow_of ha h2
      omega
  have hLmem : L ∈ out := by
    apply mem_of_count_pos
    omega
  rw [h1eq, h2eq, h3eq]
  refine ⟨⟨?_, ?_, ?_, ?_, ?_, ?_, ?_, ?_⟩, hmul_ge, hmul_le⟩
  · rw [List.length_map]
    exact hlen
  · intro n
    by_cases hn : n < out.length
    · rw [getD_map_nat out _ n hn]
      have hle : (if out.getD n 0 = L then
          out.getD n 0 - Min.min (excess / ne) (L - nl) else out.getD n 0) ≤
          out.getD n 0 := by
        split <;> omega
      exact le_trans hle (hpt n)
    · rw [getD_default _ n (by rw [List.length_map]; omega)]
      omega
  · intro a ha
    obtain ⟨b, hb, rfl⟩ := List.mem_map.mp ha
    have hbU' := hbU b hb
    have hle : (if b = L then b - Min.min (excess / ne) (L - nl) else b) ≤ b := by
      split <;> omega
    omega
  · symm
    apply maxOf_eq
    · intro x hx
      obtain ⟨b, hb, rfl⟩ := List.mem_map.mp hx
      by_cases hbL : b = L
      · rw [if_pos hbL, hbL]
      · rw [if_neg hbL]
        have := (hbelow b hb).resolve_left hbL
        omega
    · have hmem := List.mem_map_of_mem
        (fun a => if a = L then a - Min.min (excess / ne) (L - nl) else a) hLmem
      simpa using hmem
  · rw [sum_map_shrink L (Min.min (excess / ne) (L - nl)) (by omega) out, hsum,
      ← hacc_ne]
    revert hmul_le
    generalize Min.min (excess / ne) (L - nl) * ne = W
    intro hW
    omega
  · intro hcond
    by_cases hA : L - Min.min (excess / ne) (L - nl) = nl
    · constructor
      · rw [hA, count_map_shrink_eq L (Min.min (excess / ne) (L - nl)) nl hnlL hA out]
        omega
      · rw [hA, maxBelow,
          filter_map_shrink L (Min.min (excess / ne) (L - nl)) nl hnlL hA out
            (fun a ha => by rcases hbelow a ha with h | h <;> omega)]
    · exfalso
      have hor := min_choice (excess / ne) (L - nl)
      have hqe : Min.min (excess / ne) (L - nl) = excess / ne := by
        rcases hor with h | h
        · exact h
        · omega
      rw [hqe] at hcond
      have hmod : ne * (excess / ne) + excess % ne = excess := Nat.div_add_mod excess ne
      have hlt : excess % ne < ne := Nat.mod_lt _ (by omega)
      have hcomm : excess / ne * ne = ne * (excess / ne) := Nat.mul_comm _ _
      rw [hcomm] at hcond
      omega
  · by_cases hA : L - Min.min (excess / ne) (L - nl) = nl
    · rw [hA, count_map_shrink_eq L (Min.min (excess / ne) (L - nl)) nl hnlL hA out]
      omega
    · have hgt : nl < L - Min.min (excess / ne) (L - nl) := by omega
      rw [count_map_shrink_gt L (Min.min (excess / ne) (L - nl)) nl hgt out hbelow]
      omega
  · omega

lemma shrinkLoop_inv (excess : ℕ) :
    ∀ (mins : List ℕ) (target : ℕ) (out : List ℕ) (L ne nl : ℕ),
    ShrinkInv mins target out excess L ne nl →
    ∃ res, shrinkLoop (excess + 1) out excess L ne nl = some res ∧
      res.length = mins.length ∧ (∀ n, res.getD n 0 ≤ mins.getD n 0) := by
  induction excess using Nat.strong_induction_on with
  | _ excess ih =>
    intro mins target out L ne nl hInv
    obtain ⟨hlen, hpt, hbU, hLmax, hsum, hacc_cond, hcnt_le, hne1⟩ := hInv
    rw [shrinkLoop]
    by_cases hex : excess = 0
    · rw [if_pos hex]
      exact ⟨out, rfl, hlen, hpt⟩
    · rw [if_neg hex]
      by_cases hstep : Min.min (excess / ne) (L - nl) = 0
      · rw [if_pos hstep]
        refine ⟨decrLargest L out excess, rfl, ?_, ?_⟩
        · rw [decrLargest_length L out excess]
          exact hlen
        · have hL1 : 1 ≤ L := by
            rw [hLmax]
            apply maxOf_pos_of_sum_pos
            omega
          intro n
          exact le_trans (decrLargest_getD_le L hL1 out excess hbU n) (hpt n)
      · rw [if_neg hstep]
        obtain ⟨hInv', hmul_ge, hmul_le⟩ :=
          shrinkInv_step mins target out excess L ne nl
            ⟨hlen, hpt, hbU, hLmax, hsum, hacc_cond, hcnt_le, hne1⟩ hstep
        have hlt : excess - Min.min (excess / ne) (L - nl) * ne < excess := by omega
        have hne' : 1 ≤ ne + (shrinkPass L nl
            (Min.min (excess / ne) (L - nl)) out 0 0).2.1 := by omega
        rw [shrinkLoop_fuel _ excess _ _ _ _ hne' (by omega)]
        exact ih _ hlt mins target _ _ _ _ hInv'

lemma shrinkLoop_replicate (excess : ℕ) :
    ∀ (N m target : ℕ), 1 ≤ N → m < U32 → N * m = target + excess →
    ∃ res, shrinkLoop (excess + 1) (List.replicate N m) excess m N 0 = some res ∧
      ∀ i j, i < N → j < N → res.getD i 0 ≤ res.getD j 0 + 1 := by
  induction excess using Nat.strong_induction_on with
  | _ excess ih =>
    intro N m target hN hmU hsum
    rw [shrinkLoop]
    by_cases hex : excess = 0
    · rw [if_pos hex]
      refine ⟨List.replicate N m, rfl, ?_⟩
      intro i j hi hj
      rw [getD_replicate m N i hi, getD_replicate m N j hj]
      omega
    · rw [if_neg hex]
      have hm1 : 1 ≤ m := by
        by_cases hm : m = 0
        · subst hm
          simp at hsum
          omega
        · omega
      by_cases hstep : Min.min (excess / N) (m - 0) = 0
      · rw [if_pos hstep]
        rw [decrLargest_replicate m hm1 hmU N excess]
        refine ⟨_, rfl, ?_⟩
        intro i j hi hj
        have hkN : Min.min (excess + 1) N ≤ N := min_le_right _ _
        have hi' : i < Min.min (excess + 1) N + (N - Min.min (excess + 1) N) := by omega
        have hj' : j < Min.min (excess + 1) N + (N - Min.min (excess + 1) N) := by omega
        rw [getD_rep_append (m - 1) m _ _ i hi', getD_rep_append (m - 1) m _ _ j hj']
        split <;> split <;> omega
      · rw [if_neg hstep]
        have hst1 : 1 ≤ Min.min (excess / N) (m - 0) := Nat.pos_of_ne_zero hstep
        have hspec := shrinkPass_spec m 0 (Min.min (excess / N) (m - 0))
          (by omega) (List.replicate N m) 0 0
        have h1eq : (shrinkPass m 0 (Min.min (excess / N) (m - 0))
            (List.replicate N m) 0 0).1 =
            List.replicate N (m - Min.min (excess / N) (m - 0)) := by
          rw [hspec]
          simp [List.map_replicate]
        have h2eq : (shrinkPass m 0 (Min.min (excess / N) (m - 0))
            (List.replicate N m) 0 0).2.1 = 0 := by
          rw [hspec]
          simp [List.count_replicate]
          omega
        have h3eq : (shrinkPass m 0 (Min.min (excess / N) (m - 0))
            (List.replicate N m) 0 0).2.2 = 0 := by
          rw [hspec]
          have hfil : (List.replicate N m).filter (fun a => a ≠ m ∧ a ≠ 0) = [] := by
            rw [List.filter_replicate]
            simp
          rw [hfil]
          simp [maxOf]
        rw [h1eq, h2eq, h3eq]
        have hmul_le : Min.min (excess / N) (m - 0) * N ≤ excess :=
          le_trans (Nat.mul_le_mul_right _ (min_le_left _ _)) (Nat.div_mul_le_self _ _)
        have hmul_ge : 1 ≤ Min.min (excess / N) (m - 0) * N :=
          Nat.one_le_iff_ne_zero.mpr (Nat.mul_ne_zero (by omega) (by omega))
        have hlt : excess - Min.min (excess / N) (m - 0) * N < excess := by omega
        have hsub : N * (m - Min.min (excess / N) (m - 0)) =
            N * m - N * Min.min (excess / N) (m - 0) := by
          rw [Nat.mul_comm, Nat.sub_mul, Nat.mul_comm m N,
            Nat.mul_comm (Min.min (excess / N) (m - 0)) N]
        have hstm : Min.min (excess / N) (m - 0) ≤ m := by
          have := min_le_right (excess / N) (m - 0)
          omega
        have hsum' : N * (m - Min.min (excess / N) (m - 0)) =
            target + (excess - Min.min (excess / N) (m - 0) * N) := by
          rw [hsub]
          have hc : N * Min.min (excess / N) (m - 0) =
              Min.min (excess / N) (m - 0) * N := Nat.mul_comm _ _
          rw [hc]
          revert hmul_le hmul_ge
          generalize Min.min (excess / N) (m - 0) * N = W
          intro h1 h2
          omega
        rw [Nat.add_zero, shrinkLoop_fuel _ excess _ _ _ _ (by omega) (by omega)]
        exact ih _ hlt N (m - Min.min (excess / N) (m - 0)) target hN (by omega) hsum'

lemma maxOf_mem : ∀ (l : List ℕ), l ≠ [] → maxOf l ∈ l := by
  intro l
  induction l with
  | nil =>
    intro h
    exact absurd rfl h
  | cons a rest ih =>
    intro _
    rw [maxOf_cons]
    by_cases hr : rest = []
    · subst hr
      simp [maxOf]
    · rcases max_choice a (maxOf rest) with h | h
      · rw [h]
        exact List.mem_cons_self a rest
      · rw [h]
        exact List.mem_cons_of_mem a (ih hr)

lemma maxOf_replicate (N m : ℕ) (hN : N ≠ 0) : maxOf (List.replicate N m) = m :=
  maxOf_eq (fun a ha => le_of_eq (List.eq_of_mem_replicate ha))
    (List.mem_replicate.mpr ⟨hN, rfl⟩)

lemma count_replicate_self (N m : ℕ) : (List.replicate N m).count m = N := by
  simp [List.count_replicate]

lemma maxBelow_replicate (N m : ℕ) : maxBelow (List.replicate N m) m = 0 := by
  rw [maxBelow, List.filter_replicate]
  simp [maxOf]

/-- C4: in the deficit case of `solve_seq` (aggregate minimum equal to the sum
of the child minimums, `target < aggregate.min`), the computation succeeds and
every output entry satisfies `out[n] <= rules[n].min`; moreover when all child
minimums are equal the resulting sizes differ pairwise by at most `1` unit
(fair shrink). -/
theorem c4_deficit_bounds (rules : List SizeRules) (out : List ℕ) (target : ℕ)
    (hlen : rules.length = out.length + 1)
    (hN : out.length ≠ 0)
    (hagg : (rules.getD out.length SizeRules.EMPTY).a =
      ((rules.take out.length).map SizeRules.a).sum)
    (haggU : (rules.getD out.length SizeRules.EMPTY).a < U32)
    (htgt : target < (rules.getD out.length SizeRules.EMPTY).a) :
    ∃ res, solveSeq out rules target = some res ∧
      (∀ n, res.getD n 0 ≤ ((rules.take out.length).map SizeRules.a).getD n 0) ∧
      (∀ m, (rules.take out.length).map SizeRules.a =
          List.replicate out.length m →
        ∀ i j, i < out.length → j < out.length →
          res.getD i 0 ≤ res.getD j 0 + 1) := by
  rw [solveSeq_deficit_eq out rules target hlen hN (by omega)]
  rw [initScan_spec (rules.take out.length)]
  simp only [stateOf]
  have hmins_ne : (rules.take out.length).map SizeRules.a ≠ [] := by
    intro hcon
    have : ((rules.take out.length).map SizeRules.a).length = 0 := by
      rw [hcon]
      rfl
    rw [List.length_map, List.length_take] at this
    omega
  have hsumA : ((rules.take out.length).map SizeRules.a).sum =
      (rules.getD out.length SizeRules.EMPTY).a := hagg.symm
  have hInv : ShrinkInv ((rules.take out.length).map SizeRules.a) target
      ((rules.take out.length).map SizeRules.a)
      ((rules.getD out.length SizeRules.EMPTY).a - target)
      (maxOf ((rules.take out.length).map SizeRules.a))
      (((rules.take out.length).map SizeRules.a).count
        (maxOf ((rules.take out.length).map SizeRules.a)))
      (maxBelow ((rules.take out.length).map SizeRules.a)
        (maxOf ((rules.take out.length).map SizeRules.a))) := by
    refine ⟨rfl, fun n => le_refl _, ?_, rfl, ?_, fun _ => ⟨rfl, rfl⟩, le_refl _, ?_⟩
    · intro a ha
      have := elem_le_sum ha
      omega
    · omega
    · have hmem := maxOf_mem _ hmins_ne
      have := count_pos_of_mem hmem
      omega
  obtain ⟨res, hres, hlen', hle⟩ := shrinkLoop_inv
    ((rules.getD out.length SizeRules.EMPTY).a - target)
    ((rules.take out.length).map SizeRules.a) target
    ((rules.take out.length).map SizeRules.a) _ _ _ hInv
  refine ⟨res, hres, hle, ?_⟩
  intro m hrep i j hi hj
  have hNe : out.length ≠ 0 := hN
  have hmrep := hrep
  rw [hrep] at hres
  rw [maxOf_replicate out.length m hNe, count_replicate_self, maxBelow_replicate]
    at hres
  have hmU : m < U32 := by
    have hmem : m ∈ List.replicate out.length m :=
      List.mem_replicate.mpr ⟨hNe, rfl⟩
    have h1 : m ≤ (List.replicate out.length m).sum := elem_le_sum hmem
    rw [← hrep, hsumA] at h1
    omega
  have hsum2 : out.length * m =
      target + ((rules.getD out.length SizeRules.EMPTY).a - target) := by
    have h1 : (List.replicate out.length m).sum = out.length * m := by
      rw [List.sum_replicate, smul_eq_mul]
    rw [← hrep, hsumA] at h1
    omega
  obtain ⟨res2, hres2, hpair⟩ := shrinkLoop_replicate
    ((rules.getD out.length SizeRules.EMPTY).a - target)
    out.length m target (by omega) hmU hsum2
  have hsame : res = res2 := by
    have h := hres.symm.trans hres2
    rw [Option.some_inj] at h
    exact h
  rw [hsame]
  exact hpair i j hi hj

/-- Witness for C4 at a concrete deficit input: two children with minimum `5`,
aggregate minimum `10`, target `7`. -/
theorem c4_witness :
    7 < (([⟨5, 5⟩, ⟨5, 5⟩, ⟨10, 10⟩] : List SizeRules).getD 2 SizeRules.EMPTY).a ∧
    ∃ res, solveSeq [0, 0] [⟨5, 5⟩, ⟨5, 5⟩, ⟨10, 10⟩] 7 = some res ∧
      (∀ n, res.getD n 0 ≤
        ((([⟨5, 5⟩, ⟨5, 5⟩, ⟨10, 10⟩] : List SizeRules).take 2).map
          SizeRules.a).getD n 0) ∧
      (∀ m, (([⟨5, 5⟩, ⟨5, 5⟩, ⟨10, 10⟩] : List SizeRules).take 2).map
          SizeRules.a = List.replicate 2 m →
        ∀ i j, i < 2 → j < 2 → res.getD i 0 ≤ res.getD j 0 + 1) :=
  ⟨by decide,
   c4_deficit_bounds [⟨5, 5⟩, ⟨5, 5⟩, ⟨10, 10⟩] [0, 0] 7
     (by decide) (by decide) (by decide) (by decide) (by decide)⟩
